import Mathlib

/-!
# mktree: a pointer-linked Merkle tree

A shallow embedding of `mktree.go` and `hasher.go`.

* Byte slices (`[]byte`) are lists of bytes; `bytes.Equal` is list equality.
* `*Node` pointers are addresses into a heap (`List Node`); `nil` is `none`.
  Allocation (`&Node{...}`) appends a cell to the heap.
* A Go panic (index out of range, nil dereference) is `Fault.panic`; a loop that
  has no bound in its own text carries a fuel argument, and exhausting it is
  `Fault.fuel`.
-/

set_option autoImplicit false

namespace Mktree

/-! ## Data model -/

abbrev Byte := Fin 256

abbrev Bytes := List Byte

/-- The ways a run can fail to return: a Go runtime panic, or fuel exhaustion of the model. -/
inductive Fault where
  | panic
  | fuel
  deriving DecidableEq, Repr

deriving instance DecidableEq for Except

/-- The `hash.Hash` value returned by `HashFn`: a running state fed by `Write` and read by
`Sum(nil)`. Its implementation is not part of the repository, so it is a parameter, and so is
the type `σ` of its running state. -/
structure HashImp (σ : Type) where
  new : σ
  Write : σ → Bytes → σ
  Sum : σ → Bytes

/-- The `Hasher` struct of hasher.go. -/
structure Hasher (σ : Type) where
  Imp : HashImp σ

/-- The `Hasher.Hash(data ...[]byte)` method: write every part in order, then `Sum(nil)`. -/
def Hasher.Hash {σ : Type} (hr : Hasher σ) (data : List Bytes) : Bytes :=
  hr.Imp.Sum (data.foldl hr.Imp.Write hr.Imp.new)

/-- The `Node` struct: three pointers and a digest. -/
structure Node where
  Parent : Option Nat
  Left : Option Nat
  Right : Option Nat
  Hash : Bytes
  deriving DecidableEq, Repr

abbrev Heap := List Node

/-- The `Tree` struct. `Leaves` holds the addresses of the leaf nodes. -/
structure Tree (σ : Type) where
  Root : Option Nat
  Leaves : List Nat
  h : Hasher σ

/-- Dereference of a node pointer; an address outside the heap faults. -/
def deref (hp : Heap) (a : Nat) : Except Fault Node :=
  match hp[a]? with
  | some n => .ok n
  | none => .error .panic

/-- Dereference of a possibly nil pointer. -/
def derefPtr (hp : Heap) : Option Nat → Except Fault Node
  | some a => deref hp a
  | none => .error .panic

/-- The assignment `p.Parent = n`. -/
def setParent (hp : Heap) (a n : Nat) : Except Fault Heap :=
  match hp[a]? with
  | some nd => .ok (hp.set a { nd with Parent := some n })
  | none => .error .panic

/-- The assignment `p.Hash = d`. -/
def setHash (hp : Heap) (a : Nat) (d : Bytes) : Except Fault Heap :=
  match hp[a]? with
  | some nd => .ok (hp.set a { nd with Hash := d })
  | none => .error .panic

/-! ## buildRoot -/

/-- The inner loop of `buildRoot` (`for i := 0; i < len(nodes); i += 2`), over the nodes from
index `i` on. `nodes[i+1]` past the end of the slice is an index-out-of-range panic. -/
def pairLoop {σ : Type} (h : Hasher σ) : List Nat → Heap → List Nat → Except Fault (Heap × List Nat)
  | [], hp, parents => .ok (hp, parents)
  | [_], _, _ => .error .panic
  | l :: r :: rest, hp, parents => do
    let nl ← deref hp l
    let nr ← deref hp r
    let n := hp.length
    let hp1 := hp ++ [{ Parent := none, Left := some l, Right := some r,
                        Hash := h.Hash [nl.Hash, nr.Hash] }]
    let hp2 ← setParent hp1 l n
    let hp3 ← setParent hp2 r n
    pairLoop h rest hp3 (parents ++ [n])

/-- The statement `if len(nodes)%2 != 0 { nodes = append(nodes, nodes[len(nodes)-1]) }`. The
slice `t.Leaves` is made with capacity `len(hashes)` and filled up, so this `append` copies and
`t.Leaves` itself never changes. -/
def dupLast (nodes : List Nat) : List Nat :=
  if nodes.length % 2 ≠ 0 then
    match nodes.getLast? with
    | some x => nodes ++ [x]
    | none => nodes
  else nodes

/-- The outer loop of `buildRoot` (`for len(nodes) > 1`). -/
def buildLoop {σ : Type} (h : Hasher σ) : Nat → List Nat → Heap → Except Fault (Heap × List Nat)
  | fuel, nodes, hp =>
    if nodes.length > 1 then
      match fuel with
      | 0 => .error .fuel
      | fuel + 1 => do
        let (hp1, parents) ← pairLoop h (dupLast nodes) hp []
        buildLoop h fuel parents hp1
    else .ok (hp, nodes)

/-- The method `Tree.buildRoot`: the loop, then `return nodes[0]`. Every round at least halves
the level, so `len(t.Leaves)` rounds of fuel are never used up (`buildLoop_spec`). -/
def buildRoot {σ : Type} (t : Tree σ) (hp : Heap) : Except Fault (Heap × Nat) := do
  let (hp1, nodes) ← buildLoop t.h t.Leaves.length t.Leaves hp
  match nodes with
  | [] => .error .panic
  | r :: _ => .ok (hp1, r)

/-! ## Constructors -/

/-- The loop `for _, h := range hashes { t.Leaves = append(t.Leaves, &Node{Hash: h}) }`. -/
def addLeaves : List Bytes → Heap → List Nat → Heap × List Nat
  | [], hp, leaves => (hp, leaves)
  | d :: ds, hp, leaves =>
    addLeaves ds (hp ++ [{ Parent := none, Left := none, Right := none, Hash := d }])
      (leaves ++ [hp.length])

/-- The constructor `NewFromHashes`, run on an empty heap. -/
def NewFromHashes {σ : Type} (hashes : List Bytes) (h : Hasher σ) : Except Fault (Heap × Tree σ) := do
  let (hp, leaves) := addLeaves hashes [] []
  let t : Tree σ := { Root := none, Leaves := leaves, h := h }
  let (hp1, r) ← buildRoot t hp
  .ok (hp1, { t with Root := some r })

/-! ## VerifyProof -/

/-- The loop of `VerifyProof`, over `proofs[i:]` and `idxs[i:]`. Reading `idxs[i]` past the end
of `idxs` is an index-out-of-range panic. -/
def verifyLoop {σ : Type} (h : Hasher σ) : List Bytes → List Int → Bytes → Except Fault Bytes
  | [], _, prevHash => .ok prevHash
  | _ :: _, [], _ => .error .panic
  | p :: proofs, i :: idxs, prevHash =>
    if i = 0 then verifyLoop h proofs idxs (h.Hash [p, prevHash])
    else verifyLoop h proofs idxs (h.Hash [prevHash, p])

/-- The function `VerifyProof`. -/
def VerifyProof {σ : Type} (rootHash value : Bytes) (proofs : List Bytes) (idxs : List Int)
    (h : Hasher σ) :
    Except Fault Bool := do
  let prevHash ← verifyLoop h proofs idxs value
  .ok (decide (rootHash = prevHash))

/-! ## GetProof -/

/-- The error value of `GetProof`. -/
def errNotFound : String := "hash does not belong to the tree"

/-- The loop `for parent != nil` of `GetProof`; `currentNode` and `parent` are pointers. -/
def climb (hp : Heap) : Nat → Nat → Option Nat → List Bytes → List Int →
    Except Fault (List Bytes × List Int)
  | _, _, none, path, idxs => .ok (path, idxs)
  | 0, _, some _, _, _ => .error .fuel
  | fuel + 1, currentNode, some parent, path, idxs => do
    let cur ← deref hp currentNode
    let par ← deref hp parent
    let left ← derefPtr hp par.Left
    if cur.Hash = left.Hash then do
      let right ← derefPtr hp par.Right
      climb hp fuel parent par.Parent (path ++ [right.Hash]) (idxs ++ [1])
    else
      climb hp fuel parent par.Parent (path ++ [left.Hash]) (idxs ++ [0])

/-- The loop `for _, currentNode := range t.Leaves` of `GetProof`; `none` when no leaf matched. -/
def findLeaf (hp : Heap) (hash : Bytes) : List Nat → Except Fault (Option Nat)
  | [] => .ok none
  | currentNode :: rest => do
    let cur ← deref hp currentNode
    if cur.Hash = hash then .ok (some currentNode) else findLeaf hp hash rest

/-- The method `Tree.GetProof`: path, positions and the error (`none` is `nil`). A parent chain
in a heap of `n` cells that is longer than `n` is cyclic, so `n` rounds of fuel are exhausted
only where the Go loop does not end. -/
def GetProof {σ : Type} (t : Tree σ) (hp : Heap) (hash : Bytes) :
    Except Fault (List Bytes × List Int × Option String) := do
  match ← findLeaf hp hash t.Leaves with
  | some currentNode =>
    let cur ← deref hp currentNode
    let (path, idxs) ← climb hp hp.length currentNode cur.Parent [] []
    .ok (path, idxs, none)
  | none => .ok ([], [], some errNotFound)

/-! ## Verify -/

/-- The method `Tree.Verify`. `buildRoot` relinks `Parent` pointers and allocates, so the heap
after the call is returned with the verdict. -/
def Verify {σ : Type} (t : Tree σ) (hp : Heap) : Except Fault (Bool × Heap) :=
  if t.Leaves.length = 0 ∨ t.Root = none then .ok (false, hp)
  else do
    let (hp1, cr) ← buildRoot t hp
    let root ← derefPtr hp1 t.Root
    let crn ← deref hp1 cr
    .ok (decide (root.Hash = crn.Hash), hp1)

/-- The statement `t.Leaves[i].Hash = d` of the example program. -/
def overwriteLeaf {σ : Type} (t : Tree σ) (hp : Heap) (i : Nat) (d : Bytes) : Except Fault Heap :=
  match t.Leaves[i]? with
  | some a => setHash hp a d
  | none => .error .panic

/-- The digest `t.Root.Hash`. -/
def rootDigest {σ : Type} (t : Tree σ) (hp : Heap) : Except Fault Bytes := do
  let root ← derefPtr hp t.Root
  .ok root.Hash

/-! ## Example hashers -/

/-- A `hash.Hash` whose `Sum` returns everything written so far. -/
def idImp : HashImp Bytes := { new := [], Write := fun s d => s ++ d, Sum := fun s => s }

def idHasher : Hasher Bytes := { Imp := idImp }

/-- A one-byte polynomial checksum `hash.Hash`: each byte `b` written turns the state `s` into
`3 * s + b + 1` (modulo 256), and `Sum` is the state. -/
def polyImp : HashImp Byte :=
  { new := 0, Write := fun s d => d.foldl (fun a b => 3 * a + b + 1) s, Sum := fun s => [s] }

def polyHasher : Hasher Byte := { Imp := polyImp }

/-! ## Reading the heap -/

/-- The digest stored at an address (empty when the address is outside the heap). -/
def hashAt (hp : Heap) (a : Nat) : Bytes :=
  match hp[a]? with
  | some nd => nd.Hash
  | none => []

/-- The later heap `hp'` keeps every cell of `hp` up to its `Parent` field, and keeps that field
too outside the addresses in `S`. -/
def Ext (hp hp' : Heap) (S : List Nat) : Prop :=
  ∀ a nd, hp[a]? = some nd → ∃ nd', hp'[a]? = some nd' ∧ nd'.Hash = nd.Hash ∧
    nd'.Left = nd.Left ∧ nd'.Right = nd.Right ∧ (a ∉ S → nd'.Parent = nd.Parent)

/-- Every cell with two children holds the digest of its children's digests. -/
def HashOK {σ : Type} (h : Hasher σ) (hp : Heap) : Prop :=
  ∀ (p : Nat) (nd : Node) (l r : Nat), hp[p]? = some nd → nd.Left = some l → nd.Right = some r →
    l < hp.length ∧ r < hp.length ∧ nd.Hash = h.Hash [hashAt hp l, hashAt hp r]

/-- The node `a` lies `k` parent links below the parentless node `r`, and every node on the way
up is a child of its parent, which was allocated after it. -/
inductive Path (hp : Heap) : Nat → Nat → Nat → Prop
  | root (r : Nat) (nd : Node) : hp[r]? = some nd → nd.Parent = none → Path hp r r 0
  | step (a p r k : Nat) (nd ndp : Node) (l rr : Nat) :
      hp[a]? = some nd → nd.Parent = some p → a < p → hp[p]? = some ndp →
      ndp.Left = some l → ndp.Right = some rr → l < hp.length → rr < hp.length →
      (a = l ∨ a = rr) → Path hp p r k → Path hp a r (k + 1)

/-- The cell of a fresh leaf, `&Node{Hash: d}`. -/
def leafCell (d : Bytes) : Node := { Parent := none, Left := none, Right := none, Hash := d }

/-! ## The bottom-up construction in the words of the specification -/

/-- Replace each adjacent pair `(x0,x1),(x2,x3),...` by `hash(left, right)`. -/
def hashPairs {σ : Type} (h : Hasher σ) : List Bytes → List Bytes
  | l :: r :: rest => h.Hash [l, r] :: hashPairs h rest
  | _ => []

/-- If the level has odd length, append a copy of its last digest. -/
def padOdd (xs : List Bytes) : List Bytes :=
  if xs.length % 2 ≠ 0 then
    match xs.getLast? with
    | some x => xs ++ [x]
    | none => xs
  else xs

/-- One step of the bottom-up construction of section 4.2. -/
def specStep {σ : Type} (h : Hasher σ) (xs : List Bytes) : List Bytes :=
  hashPairs h (padOdd xs)

/-- Repeat the step until one digest remains, for at most `fuel` rounds. -/
def specRootAux {σ : Type} (h : Hasher σ) : Nat → List Bytes → Option Bytes
  | _, [] => none
  | _, [x] => some x
  | 0, _ :: _ :: _ => none
  | fuel + 1, l :: r :: rest => specRootAux h fuel (specStep h (l :: r :: rest))

/-- Modelled on the words of section 4.2: repeat the step until one digest remains; that digest
is the root. A level of `n` digests is down to one digest in fewer than `n` rounds
(`specRootAux_fuel`), and no digest ever remains of an empty level. -/
def specRoot {σ : Type} (h : Hasher σ) (xs : List Bytes) : Option Bytes :=
  specRootAux h xs.length xs

/-! ## Scenarios and hypotheses of the properties -/

/-- The digest `t.Root.Hash` of the tree `NewFromHashes(hashes, h)`. -/
def rootOfHashes {σ : Type} (hashes : List Bytes) (h : Hasher σ) : Except Fault Bytes := do
  let (hp, t) ← NewFromHashes hashes h
  rootDigest t hp

/-- Distinct concatenated inputs give distinct digests. -/
def CollisionFree {σ : Type} (h : Hasher σ) : Prop :=
  ∀ a b c d : Bytes, a ++ b ≠ c ++ d → h.Hash [a, b] ≠ h.Hash [c, d]

/-- The states of a tree and its heap that the operations of the package produce: construction by
`NewFromHashes`, then any number of leaf overwrites and calls of `Verify`. -/
inductive Reachable {σ : Type} : Heap → Tree σ → Prop
  | build (hashes : List Bytes) (h : Hasher σ) (hp : Heap) (t : Tree σ) :
      NewFromHashes hashes h = .ok (hp, t) → Reachable hp t
  | overwrite (hp hp' : Heap) (t : Tree σ) (i : Nat) (d : Bytes) :
      Reachable hp t → overwriteLeaf t hp i d = .ok hp' → Reachable hp' t
  | verify (hp hp' : Heap) (t : Tree σ) (b : Bool) :
      Reachable hp t → Verify t hp = .ok (b, hp') → Reachable hp' t

/-- The scenario of the example program: build the tree, overwrite the digest of leaf `i` with
`d`, and return the verdict of `Verify`. -/
def buildOverwriteVerify {σ : Type} (hashes : List Bytes) (h : Hasher σ) (i : Nat) (d : Bytes) :
    Except Fault Bool := do
  let (hp, t) ← NewFromHashes hashes h
  let hp1 ← overwriteLeaf t hp i d
  let (b, _) ← Verify t hp1
  .ok b

/-- The digest of the `j`-th pair of a level, from the entries at `2j` and `2j+1`: a last entry
without a partner is paired with itself. -/
def pairDigest {σ : Type} (h : Hasher σ) : Option Bytes → Option Bytes → Option Bytes
  | some l, some r => some (h.Hash [l, r])
  | some l, none => some (h.Hash [l, l])
  | none, _ => none

/-- Two levels of the same length that differ at exactly one index. -/
def DifferAtOne (xs ys : List Bytes) : Prop :=
  xs.length = ys.length ∧ ∃ i : Nat, xs[i]? ≠ ys[i]? ∧ ∀ j : Nat, j ≠ i → xs[j]? = ys[j]?

/-- The list with the digests at positions `i` and `j` exchanged. -/
def swapAt (xs : List Bytes) (i j : Nat) : List Bytes :=
  match xs[i]?, xs[j]? with
  | some a, some b => (xs.set i b).set j a
  | _, _ => xs

/-- The digests of all nodes of the tree `NewFromHashes(hashes, h)`, leaves and inner nodes. -/
def treeDigests {σ : Type} (hashes : List Bytes) (h : Hasher σ) : List Bytes :=
  match NewFromHashes hashes h with
  | .ok (hp, _) => hp.map (fun nd => nd.Hash)
  | .error _ => []

/-- Distinct concatenated inputs give distinct digests, for inputs made of digests in `S`. -/
def CollisionFreeOn {σ : Type} (h : Hasher σ) (S : List Bytes) : Prop :=
  ∀ a ∈ S, ∀ b ∈ S, ∀ c ∈ S, ∀ d ∈ S, a ++ b ≠ c ++ d → h.Hash [a, b] ≠ h.Hash [c, d]

/-- The digests of a level and of all levels above it, for at most `fuel` rounds. -/
def levelDigests {σ : Type} (h : Hasher σ) : Nat → List Bytes → List Bytes
  | 0, xs => xs
  | fuel + 1, xs => if 1 < xs.length then xs ++ levelDigests h fuel (specStep h xs) else xs

/-- Modelled on the words of section 4.4: fold left to right from `current = value`; for each
pair `(sibling, position)`, `current = hash(sibling, current)` when the position is 0 and
`current = hash(current, sibling)` otherwise. -/
def specFold {σ : Type} (h : Hasher σ) (value : Bytes) (pairs : List (Bytes × Int)) : Bytes :=
  pairs.foldl (fun current p =>
    if p.2 = 0 then h.Hash [p.1, current] else h.Hash [current, p.1]) value

/-! ## Construction from hashable inputs -/

/-- A `Hashable`, that is an `io.Reader`, by what reading it to the end delivers: the chunks of
bytes of the successive reads, then `io.EOF` (`err = none`) or a read error. -/
structure Hashable where
  chunks : List Bytes
  err : Option String

/-- The method `Hasher.Hashable`: `io.Copy(h, data)` writes every chunk read into the running
hash; a read error is returned as it is, otherwise the result is `h.Sum(nil)`. -/
def Hasher.Hashable {σ : Type} (hr : Hasher σ) (data : Hashable) : Except String Bytes :=
  let s := data.chunks.foldl hr.Imp.Write hr.Imp.new
  match data.err with
  | some e => .error e
  | none => .ok (hr.Imp.Sum s)

/-- The loop `for _, hashable := range hashables` of `NewFromHashables`, with the number of
inputs read so far: the first error ends the loop. -/
def hashLeaves {σ : Type} (h : Hasher σ) :
    List Hashable → Heap → List Nat → Nat → Except String (Heap × List Nat) × Nat
  | [], hp, leaves, reads => (.ok (hp, leaves), reads)
  | hashable :: rest, hp, leaves, reads =>
    match h.Hashable hashable with
    | .error err => (.error err, reads + 1)
    | .ok d =>
      hashLeaves h rest (hp ++ [{ Parent := none, Left := none, Right := none, Hash := d }])
        (leaves ++ [hp.length]) (reads + 1)

/-- The constructor `NewFromHashables`, run on an empty heap: the pair `(*Tree, error)` is
`.error err` for `(nil, err)` and `.ok (heap, tree)` for `(t, nil)`; the second component is the
number of inputs that were read. -/
def NewFromHashables {σ : Type} (hashables : List Hashable) (h : Hasher σ) :
    Except Fault (Except String (Heap × Tree σ) × Nat) :=
  match hashLeaves h hashables [] [] 0 with
  | (.error err, reads) => .ok (.error err, reads)
  | (.ok (hp, leaves), reads) => do
    let t : Tree σ := { Root := none, Leaves := leaves, h := h }
    let (hp1, r) ← buildRoot t hp
    .ok (.ok (hp1, { t with Root := some r }), reads)

/-- Modelled from the spec: the hashing capability is a digest of the concatenation of its parts
(section 4.1), as `hash.Hash`, an `io.Writer`, adds each write to the running hash: two writes
leave the state that one write of the concatenation leaves. -/
def Streaming {σ : Type} (h : Hasher σ) : Prop :=
  ∀ (s : σ) (a b : Bytes), h.Imp.Write (h.Imp.Write s a) b = h.Imp.Write s (a ++ b)

/-- The verdicts of `n` successive calls of `Verify`. -/
def verifyRepeat {σ : Type} (t : Tree σ) : Nat → Heap → Except Fault (List Bool)
  | 0, _ => .ok []
  | n + 1, hp => do
    let (b, hp1) ← Verify t hp
    let bs ← verifyRepeat t n hp1
    .ok (b :: bs)

/-! ## The content of a proof -/

/-- One entry of a proof as section 4.3 words it, for the node at index `m` of a level whose
pair has the digests `left` and `right`: the digest of the other child, with position 1 when the
node is the left child and 0 when it is the right child. -/
def stepByPosition (m : Nat) (left right : Bytes) : Bytes × Int :=
  if m % 2 = 0 then (right, 1) else (left, 0)

/-- One entry of a proof with the tie rule of `GetProof`: the digest of the other child, with
position 1 when the node is the left child or its digest `cur` equals the digest of the left
child, and 0 otherwise. -/
def stepByDigest (m : Nat) (cur left right : Bytes) : Bytes × Int :=
  (if m % 2 = 0 then right else left, if m % 2 = 0 ∨ cur = left then 1 else 0)

/-- The proof for index `m` of a level, level by level up to the root, with the positions of
`stepByPosition`. -/
def proofByPosition {σ : Type} (h : Hasher σ) : Nat → List Bytes → Nat → List (Bytes × Int)
  | 0, _, _ => []
  | fuel + 1, level, m =>
    if level.length ≤ 1 then []
    else
      match (padOdd level)[2 * (m / 2)]?, (padOdd level)[2 * (m / 2) + 1]? with
      | some left, some right =>
        stepByPosition m left right :: proofByPosition h fuel (specStep h level) (m / 2)
      | _, _ => []

/-- The proof for index `m` of a level, level by level up to the root, with the positions of
`stepByDigest`. -/
def proofByDigest {σ : Type} (h : Hasher σ) : Nat → List Bytes → Nat → List (Bytes × Int)
  | 0, _, _ => []
  | fuel + 1, level, m =>
    if level.length ≤ 1 then []
    else
      match (padOdd level)[m]?, (padOdd level)[2 * (m / 2)]?, (padOdd level)[2 * (m / 2) + 1]? with
      | some cur, some left, some right =>
        stepByDigest m cur left right :: proofByDigest h fuel (specStep h level) (m / 2)
      | _, _, _ => []

/-- The states of a tree in which no leaf digest has been overwritten since the tree was built
or last verified. -/
inductive Settled {σ : Type} : Heap → Tree σ → Prop
  | build (hashes : List Bytes) (h : Hasher σ) (hp : Heap) (t : Tree σ) :
      NewFromHashes hashes h = .ok (hp, t) → Settled hp t
  | verify (hp hp' : Heap) (t : Tree σ) (b : Bool) :
      Reachable hp t → Verify t hp = .ok (b, hp') → Settled hp' t

/-- The scenario of a proof taken before and after a call of `Verify` on a tree with one leaf
overwritten: build the tree, overwrite the digest of leaf `i` with `d`, call `GetProof(x)`, call
`Verify`, call `GetProof(x)` again. -/
def proofAroundVerify {σ : Type} (hashes : List Bytes) (h : Hasher σ) (i : Nat) (d x : Bytes) :
    Except Fault ((List Bytes × List Int × Option String) ×
      (List Bytes × List Int × Option String)) := do
  let (hp, t) ← NewFromHashes hashes h
  let hp1 ← overwriteLeaf t hp i d
  let before ← GetProof t hp1 x
  let (_, hp2) ← Verify t hp1
  let after ← GetProof t hp2 x
  .ok (before, after)

/-! ## Reading the heap: lemmas -/

theorem deref_eq_ok {hp : Heap} {a : Nat} {nd : Node} (h : hp[a]? = some nd) :
    deref hp a = .ok nd := by
  simp [deref, h]

theorem hashAt_eq {hp : Heap} {a : Nat} {nd : Node} (h : hp[a]? = some nd) :
    hashAt hp a = nd.Hash := by
  simp [hashAt, h]

theorem get_of_lt {hp : Heap} {a : Nat} (h : a < hp.length) : ∃ nd, hp[a]? = some nd :=
  ⟨hp[a], List.getElem?_eq_getElem h⟩

theorem lt_of_get {hp : Heap} {a : Nat} {nd : Node} (h : hp[a]? = some nd) : a < hp.length := by
  by_contra hc
  rw [List.getElem?_eq_none (Nat.le_of_not_lt hc)] at h
  cases h

theorem Ext.refl (hp : Heap) (S : List Nat) : Ext hp hp S :=
  fun _ nd h => ⟨nd, h, rfl, rfl, rfl, fun _ => rfl⟩

theorem Ext.length_le {hp hp' : Heap} {S : List Nat} (e : Ext hp hp' S) :
    hp.length ≤ hp'.length := by
  by_contra hc
  have hlt : hp'.length < hp.length := Nat.lt_of_not_le hc
  obtain ⟨nd, hnd⟩ := get_of_lt hlt
  obtain ⟨nd', h', -⟩ := e _ nd hnd
  exact absurd (lt_of_get h') (Nat.lt_irrefl _)

theorem Ext.hashAt {hp hp' : Heap} {S : List Nat} (e : Ext hp hp' S) {a : Nat}
    (ha : a < hp.length) : hashAt hp' a = hashAt hp a := by
  obtain ⟨nd, hnd⟩ := get_of_lt ha
  obtain ⟨nd', h', hh, -⟩ := e a nd hnd
  rw [hashAt_eq hnd, hashAt_eq h', hh]

theorem Ext.trans {hp hp1 hp2 : Heap} {S S1 S2 : List Nat} (e1 : Ext hp hp1 S1)
    (e2 : Ext hp1 hp2 S2) (hS : ∀ a, a < hp.length → a ∉ S → a ∉ S1 ∧ a ∉ S2) :
    Ext hp hp2 S := by
  intro a nd hnd
  obtain ⟨nd1, h1, hh1, hl1, hr1, hp1'⟩ := e1 a nd hnd
  obtain ⟨nd2, h2, hh2, hl2, hr2, hp2'⟩ := e2 a nd1 h1
  refine ⟨nd2, h2, hh2.trans hh1, hl2.trans hl1, hr2.trans hr1, fun hn => ?_⟩
  obtain ⟨n1, n2⟩ := hS a (lt_of_get hnd) hn
  exact (hp2' n2).trans (hp1' n1)

theorem Ext.mono {hp hp' : Heap} {S T : List Nat} (e : Ext hp hp' S)
    (hST : ∀ a, a < hp.length → a ∈ S → a ∈ T) : Ext hp hp' T := by
  intro a nd hnd
  obtain ⟨nd1, h1, hh1, hl1, hr1, hp1'⟩ := e a nd hnd
  exact ⟨nd1, h1, hh1, hl1, hr1, fun hn => hp1' (fun hs => hn (hST a (lt_of_get hnd) hs))⟩

/-- Allocation of a cell extends the heap. -/
theorem Ext.alloc (hp : Heap) (c : Node) : Ext hp (hp ++ [c]) [] := by
  intro a nd hnd
  refine ⟨nd, ?_, rfl, rfl, rfl, fun _ => rfl⟩
  rw [List.getElem?_append_left (lt_of_get hnd)]
  exact hnd

/-- The assignment `a.Parent = n` succeeds on a valid address and touches that field only. -/
theorem setParent_spec {hp : Heap} {a : Nat} {nd : Node} (n : Nat) (hnd : hp[a]? = some nd) :
    ∃ hp', setParent hp a n = .ok hp' ∧ hp'.length = hp.length ∧
      hp'[a]? = some { nd with Parent := some n } ∧
      (∀ b, b ≠ a → hp'[b]? = hp[b]?) ∧ Ext hp hp' [a] := by
  refine ⟨hp.set a { nd with Parent := some n }, by simp [setParent, hnd], by simp, ?_, ?_, ?_⟩
  · rw [List.getElem?_set_self (lt_of_get hnd)]
  · intro b hb
    rw [List.getElem?_set_ne (Ne.symm hb)]
  · intro b ndb hb
    by_cases hba : b = a
    · subst hba
      rw [hnd] at hb
      cases hb
      exact ⟨_, List.getElem?_set_self (lt_of_get hnd), rfl, rfl, rfl, fun hn => absurd (List.mem_singleton.mpr rfl) hn⟩
    · refine ⟨ndb, ?_, rfl, rfl, rfl, fun _ => rfl⟩
      rw [List.getElem?_set_ne (Ne.symm hba)]
      exact hb

/-! ## The levels of digests -/

theorem hashPairs_length {σ : Type} (h : Hasher σ) :
    ∀ xs : List Bytes, (hashPairs h xs).length = xs.length / 2
  | [] => rfl
  | [_] => by simp [hashPairs]
  | _ :: _ :: rest => by
    simp only [hashPairs, List.length_cons, hashPairs_length h rest]
    omega

theorem padOdd_length (xs : List Bytes) :
    (padOdd xs).length = xs.length + xs.length % 2 := by
  unfold padOdd
  split
  · rename_i ho
    cases hl : xs.getLast? with
    | none =>
      rw [List.getLast?_eq_none_iff] at hl
      subst hl
      simp at ho
    | some x =>
      simp only [List.length_append, List.length_singleton]
      omega
  · rename_i he
    simp only [ne_eq, Decidable.not_not] at he
    omega

theorem specStep_length {σ : Type} (h : Hasher σ) (xs : List Bytes) :
    (specStep h xs).length = (xs.length + 1) / 2 := by
  unfold specStep
  rw [hashPairs_length, padOdd_length]
  omega

/-- Fuel beyond the length of the level changes nothing. -/
theorem specRootAux_fuel {σ : Type} (h : Hasher σ) :
    ∀ (f1 f2 : Nat) (xs : List Bytes), xs.length ≤ f1 → xs.length ≤ f2 →
      specRootAux h f1 xs = specRootAux h f2 xs := by
  intro f1
  induction f1 with
  | zero =>
    intro f2 xs h1 _
    have hx : xs = [] := List.length_eq_zero.mp (by omega)
    subst hx
    cases f2 <;> rfl
  | succ f1 ih =>
    intro f2 xs h1 h2
    match xs, h1, h2 with
    | [], _, _ => cases f2 <;> rfl
    | [x], _, _ => cases f2 <;> rfl
    | l :: r :: rest, h1, h2 =>
      obtain ⟨g, rfl⟩ : ∃ g, f2 = g + 1 := ⟨f2 - 1, by simp at h2; omega⟩
      simp only [specRootAux]
      have hlen := specStep_length h (l :: r :: rest)
      simp only [List.length_cons] at hlen h1 h2
      exact ih g _ (by omega) (by omega)

theorem specRoot_single {σ : Type} (h : Hasher σ) (x : Bytes) : specRoot h [x] = some x := rfl

theorem specRoot_step {σ : Type} (h : Hasher σ) (xs : List Bytes) (hlen : 1 < xs.length) :
    specRoot h xs = specRoot h (specStep h xs) := by
  match xs, hlen with
  | l :: r :: rest, _ =>
    have hlen := specStep_length h (l :: r :: rest)
    simp only [List.length_cons] at hlen
    unfold specRoot
    simp only [List.length_cons, specRootAux]
    exact specRootAux_fuel h _ _ _ (by omega) (Nat.le_refl _)

theorem dupLast_length (nodes : List Nat) :
    (dupLast nodes).length = nodes.length + nodes.length % 2 := by
  unfold dupLast
  split
  · rename_i ho
    cases hl : nodes.getLast? with
    | none =>
      rw [List.getLast?_eq_none_iff] at hl
      subst hl
      simp at ho
    | some x =>
      simp only [List.length_append, List.length_singleton]
      omega
  · rename_i he
    simp only [ne_eq, Decidable.not_not] at he
    omega

theorem mem_dupLast {nodes : List Nat} {a : Nat} : a ∈ dupLast nodes ↔ a ∈ nodes := by
  unfold dupLast
  split
  · cases hl : nodes.getLast? with
    | none => simp
    | some x =>
      have hx : x ∈ nodes := List.mem_of_getLast?_eq_some hl
      simp only [List.mem_append, List.mem_singleton]
      constructor
      · rintro (h | h)
        · exact h
        · exact h ▸ hx
      · exact Or.inl
  · rfl

theorem map_dupLast (f : Nat → Bytes) (nodes : List Nat) :
    (dupLast nodes).map f = padOdd (nodes.map f) := by
  unfold dupLast padOdd
  simp only [List.length_map, List.getLast?_map]
  split
  · cases hl : nodes.getLast? with
    | none => simp
    | some x => simp
  · rfl

/-! ## The inner loop of buildRoot -/

/-- What one round of pairing does to the heap: it allocates one cell per pair, in order, links
both children to it, and leaves every other field alone. -/
theorem pairLoop_spec {σ : Type} (h : Hasher σ) :
    ∀ (k : Nat) (nodes : List Nat) (hp : Heap) (parents : List Nat),
      nodes.length = 2 * k → (∀ a ∈ nodes, a < hp.length) →
      ∃ hp' ps, pairLoop h nodes hp parents = .ok (hp', parents ++ ps) ∧
        ps = List.range' hp.length k ∧
        hp'.length = hp.length + k ∧
        Ext hp hp' nodes ∧
        ps.map (hashAt hp') = hashPairs h (nodes.map (hashAt hp)) ∧
        (∀ p ∈ ps, ∃ nd l r, hp'[p]? = some nd ∧ nd.Parent = none ∧ nd.Left = some l ∧
          nd.Right = some r ∧ l ∈ nodes ∧ r ∈ nodes ∧
          nd.Hash = h.Hash [hashAt hp l, hashAt hp r]) ∧
        (∀ a ∈ nodes, ∃ p ∈ ps, ∃ nd ndp, hp'[a]? = some nd ∧ nd.Parent = some p ∧
          hp'[p]? = some ndp ∧ (ndp.Left = some a ∨ ndp.Right = some a)) := by
  intro k
  induction k with
  | zero =>
    intro nodes hp parents hlen _
    have hn : nodes = [] := List.length_eq_zero.mp (by omega)
    subst hn
    exact ⟨hp, [], by simp [pairLoop], by simp, by simp, Ext.refl _ _, by simp [hashPairs],
      by simp, by simp⟩
  | succ k ih =>
    intro nodes hp parents hlen hval
    match nodes, hlen, hval with
    | [], hlen, _ => simp at hlen
    | [_], hlen, _ => simp at hlen; omega
    | l :: r :: rest, hlen, hval =>
      have hl : l < hp.length := hval l (by simp)
      have hr : r < hp.length := hval r (by simp)
      have hrest : ∀ a ∈ rest, a < hp.length := fun a ha => hval a (by simp [ha])
      obtain ⟨nl, hnl⟩ := get_of_lt hl
      obtain ⟨nr, hnr⟩ := get_of_lt hr
      -- the allocation
      let c : Node := { Parent := none, Left := some l, Right := some r,
                        Hash := h.Hash [nl.Hash, nr.Hash] }
      have e1 : Ext hp (hp ++ [c]) [] := Ext.alloc hp c
      have hc1 : (hp ++ [c])[hp.length]? = some c := by simp
      have hl1 : (hp ++ [c])[l]? = some nl := by
        rw [List.getElem?_append_left hl]; exact hnl
      -- the two assignments of Parent
      obtain ⟨hp2, hs2, hlen2, hl2, hoth2, e2⟩ := setParent_spec hp.length hl1
      have hr2lt : r < hp2.length := by rw [hlen2]; simp; omega
      obtain ⟨nr2, hnr2⟩ := get_of_lt hr2lt
      obtain ⟨hp3, hs3, hlen3, hr3, hoth3, e3⟩ := setParent_spec hp.length hnr2
      have hlen3' : hp3.length = hp.length + 1 := by rw [hlen3, hlen2]; simp
      have e03 : Ext hp hp3 [l, r] := by
        refine Ext.trans (Ext.trans e1 e2 (S := [l]) ?_) e3 ?_
        · intro a _ ha; exact ⟨by simp, ha⟩
        · intro a _ ha
          simp only [List.mem_cons, List.mem_singleton, List.not_mem_nil, or_false, not_or] at ha
          exact ⟨by simpa using ha.1, by simpa using ha.2⟩
      have hc3 : hp3[hp.length]? = some c := by
        rw [hoth3 _ (by omega), hoth2 _ (by omega)]; exact hc1
      have hpl3 : ∃ nd, hp3[l]? = some nd ∧ nd.Parent = some hp.length := by
        by_cases hlr : l = r
        · subst hlr; exact ⟨_, hr3, rfl⟩
        · rw [hoth3 l hlr]; exact ⟨_, hl2, rfl⟩
      have hpr3 : ∃ nd, hp3[r]? = some nd ∧ nd.Parent = some hp.length := ⟨_, hr3, rfl⟩
      -- the rest of the level
      have hrest3 : ∀ a ∈ rest, a < hp3.length := fun a ha => by
        have := hrest a ha; omega
      have hlenr : rest.length = 2 * k := by simp at hlen; omega
      obtain ⟨hp', ps, hrun, hps, hlen', e', hmap, hnew, hpar⟩ :=
        ih rest hp3 (parents ++ [hp.length]) hlenr hrest3
      have hnotin : hp.length ∉ rest := fun hm => Nat.lt_irrefl _ (hrest _ hm)
      obtain ⟨c', hc', hch, hcl, hcr, hcp⟩ := e' _ c hc3
      have hcp' := hcp hnotin
      have hh3 : ∀ a, a < hp.length → hashAt hp3 a = hashAt hp a := fun a ha => e03.hashAt ha
      refine ⟨hp', hp.length :: ps, ?_, ?_, ?_, ?_, ?_, ?_, ?_⟩
      · simp only [pairLoop, deref_eq_ok hnl, deref_eq_ok hnr, bind, Except.bind]
        rw [hs2]
        simp only [hs3]
        rw [hrun]
        simp
      · rw [hps, hlen3', List.range'_succ]
      · rw [hlen', hlen3']; omega
      · refine Ext.trans e03 e' ?_
        intro a _ ha
        simp only [List.mem_cons, not_or] at ha
        refine ⟨?_, ha.2.2⟩
        simp only [List.mem_cons, List.mem_singleton, List.not_mem_nil, or_false, not_or]
        exact ⟨ha.1, ha.2.1⟩
      · simp only [List.map_cons, hashPairs]
        congr 1
        · rw [hashAt_eq hc', hch, hashAt_eq hnl, hashAt_eq hnr]
        · rw [hmap]
          congr 1
          exact List.map_congr_left (fun a ha => hh3 a (hrest a ha))
      · intro p hp_mem
        rcases List.mem_cons.mp hp_mem with rfl | hp_mem
        · refine ⟨c', l, r, hc', hcp', hcl, hcr, by simp, by simp, ?_⟩
          rw [hch, hashAt_eq hnl, hashAt_eq hnr]
        · obtain ⟨nd, l', r', h1, h2, h3, h4, h5, h6, h7⟩ := hnew p hp_mem
          refine ⟨nd, l', r', h1, h2, h3, h4, by simp [h5], by simp [h6], ?_⟩
          rw [h7, hh3 _ (hrest _ h5), hh3 _ (hrest _ h6)]
      · intro a ha
        by_cases har : a ∈ rest
        · obtain ⟨p, hpm, rest'⟩ := hpar a har
          exact ⟨p, List.mem_cons_of_mem _ hpm, rest'⟩
        · have hcase : a = l ∨ a = r := by
            simp only [List.mem_cons] at ha
            rcases ha with h1 | h1 | h1
            · exact Or.inl h1
            · exact Or.inr h1
            · exact absurd h1 har
          have h3 : ∃ nd, hp3[a]? = some nd ∧ nd.Parent = some hp.length := by
            rcases hcase with rfl | rfl
            · exact hpl3
            · exact hpr3
          obtain ⟨nd, hnd, hndp⟩ := h3
          obtain ⟨nd', hnd', -, -, -, hpk⟩ := e' _ nd hnd
          refine ⟨hp.length, by simp, nd', c', hnd', (hpk har).trans hndp, hc', ?_⟩
          rcases hcase with rfl | rfl
          · exact Or.inl hcl
          · exact Or.inr hcr

/-! ## The outer loop of buildRoot -/

theorem hashOK_of_ext {σ : Type} {h : Hasher σ} {hp hp' : Heap} {S : List Nat}
    (hok : HashOK h hp) (e : Ext hp hp' S)
    (hnew : ∀ (p : Nat) (nd : Node) (l r : Nat), hp.length ≤ p → hp'[p]? = some nd →
      nd.Left = some l → nd.Right = some r →
      l < hp.length ∧ r < hp.length ∧ nd.Hash = h.Hash [hashAt hp l, hashAt hp r]) :
    HashOK h hp' := by
  intro p nd l r hnd hl hr
  have hle := e.length_le
  have key : l < hp.length ∧ r < hp.length ∧ nd.Hash = h.Hash [hashAt hp l, hashAt hp r] := by
    by_cases hp_old : p < hp.length
    · obtain ⟨nd0, hnd0⟩ := get_of_lt hp_old
      obtain ⟨nd', hnd', hh, hl', hr', -⟩ := e p nd0 hnd0
      rw [hnd] at hnd'
      cases hnd'
      obtain ⟨h1, h2, h3⟩ := hok p nd0 l r hnd0 (hl' ▸ hl) (hr' ▸ hr)
      exact ⟨h1, h2, hh.trans h3⟩
    · exact hnew p nd l r (Nat.le_of_not_lt hp_old) hnd hl hr
  obtain ⟨h1, h2, h3⟩ := key
  exact ⟨by omega, by omega, by rw [h3, e.hashAt h1, e.hashAt h2]⟩

theorem mem_range'_one {s n p : Nat} : p ∈ List.range' s n ↔ s ≤ p ∧ p < s + n := by
  simp [List.mem_range'_1]

/-- The loop of `buildRoot` returns a single node on every non-empty level whose nodes are in the
heap; the digest of that node is the bottom-up root of the level's digests, and every node of the
level is linked to it by `Nat.clog 2 n` parent links. -/
theorem buildLoop_spec {σ : Type} (h : Hasher σ) :
    ∀ (fuel : Nat) (nodes : List Nat) (hp : Heap),
      nodes ≠ [] → nodes.length ≤ fuel → (∀ a ∈ nodes, a < hp.length) →
      ∃ hp' r, buildLoop h fuel nodes hp = .ok (hp', [r]) ∧
        r < hp'.length ∧
        Ext hp hp' nodes ∧
        (nodes.length = 1 → hp' = hp ∧ nodes = [r]) ∧
        (1 < nodes.length → hp.length ≤ r ∧ ∃ nd, hp'[r]? = some nd ∧ nd.Parent = none) ∧
        some (hashAt hp' r) = specRoot h (nodes.map (hashAt hp)) ∧
        (HashOK h hp → HashOK h hp') ∧
        (∀ a ∈ nodes, (nodes.length = 1 → ∃ nd, hp[a]? = some nd ∧ nd.Parent = none) →
          Path hp' a r (Nat.clog 2 nodes.length)) := by
  intro fuel
  induction fuel with
  | zero =>
    intro nodes hp hne hlen _
    exact absurd (List.length_eq_zero.mp (by omega)) hne
  | succ f ih =>
    intro nodes hp hne hlen hval
    by_cases h1 : nodes.length = 1
    · obtain ⟨r, hr⟩ := List.length_eq_one.mp h1
      subst hr
      have hrlt : r < hp.length := hval r (by simp)
      refine ⟨hp, r, by simp [buildLoop], hrlt, Ext.refl _ _, fun _ => ⟨rfl, rfl⟩,
        fun hc => by simp at hc, ?_, fun hok => hok, ?_⟩
      · simp [specRoot_single]
      · intro a ha hpar
        simp only [List.mem_singleton] at ha
        subst ha
        obtain ⟨nd, hnd, hnone⟩ := hpar rfl
        simpa using Path.root a nd hnd hnone
    · have hpos : 0 < nodes.length := List.length_pos.mpr hne
      have h2 : 1 < nodes.length := by omega
      -- one round of pairing
      have hdl : (dupLast nodes).length = 2 * ((nodes.length + 1) / 2) := by
        rw [dupLast_length]; omega
      have hdval : ∀ a ∈ dupLast nodes, a < hp.length := fun a ha => hval a (mem_dupLast.mp ha)
      obtain ⟨hp1, ps, hrun, hps, hlen1, e1, hmap, hnew, hpar⟩ :=
        pairLoop_spec h _ (dupLast nodes) hp [] hdl hdval
      have hpslen : ps.length = (nodes.length + 1) / 2 := by rw [hps]; simp
      have hpsne : ps ≠ [] := by
        intro hc
        rw [hc] at hpslen
        simp at hpslen
        omega
      have hpsmem : ∀ p, p ∈ ps ↔ hp.length ≤ p ∧ p < hp1.length := by
        intro p; rw [hps, hlen1]; exact mem_range'_one
      have hpsval : ∀ p ∈ ps, p < hp1.length := fun p hp_mem => ((hpsmem p).mp hp_mem).2
      -- the remaining rounds
      obtain ⟨hp', r, hrun', hrlt, e', hone, hmany, hroot, hok', hpath⟩ :=
        ih ps hp1 hpsne (by omega) hpsval
      have hle1 : hp.length ≤ hp1.length := e1.length_le
      have hle' : hp1.length ≤ hp'.length := e'.length_le
      have hrnew : hp.length ≤ r ∧ ∃ nd, hp'[r]? = some nd ∧ nd.Parent = none := by
        by_cases hk : ps.length = 1
        · obtain ⟨rfl, hpr⟩ := hone hk
          have hrm : r ∈ ps := by rw [hpr]; simp
          obtain ⟨nd, _, _, hnd, hnone, -⟩ := hnew r hrm
          exact ⟨((hpsmem r).mp hrm).1, nd, hnd, hnone⟩
        · have hk2 : 1 < ps.length := by
            have := List.length_pos.mpr hpsne
            omega
          obtain ⟨hr1, hr2⟩ := hmany hk2
          exact ⟨by omega, hr2⟩
      refine ⟨hp', r, ?_, hrlt, ?_, fun hc => absurd hc h1, fun _ => hrnew, ?_, ?_, ?_⟩
      · rw [buildLoop]
        simp only [h2, ↓reduceIte, bind, Except.bind]
        simp only [List.nil_append] at hrun
        rw [hrun]
        exact hrun'
      · refine Ext.trans e1 e' ?_
        intro a ha hn
        refine ⟨fun hm => hn (mem_dupLast.mp hm), fun hm => ?_⟩
        have := ((hpsmem a).mp hm).1
        omega
      · rw [hroot, hmap, map_dupLast]
        exact (specRoot_step h _ (by simpa using h2)).symm
      · intro hok
        refine hok' (hashOK_of_ext hok e1 ?_)
        intro p nd l r hple hnd hl hr
        have hpm : p ∈ ps := (hpsmem p).mpr ⟨hple, lt_of_get hnd⟩
        obtain ⟨nd2, l2, r2, hnd2, -, hl2, hr2, hlm, hrm, hh⟩ := hnew p hpm
        rw [hnd] at hnd2
        cases hnd2
        rw [hl] at hl2
        rw [hr] at hr2
        cases hl2
        cases hr2
        exact ⟨hdval _ hlm, hdval _ hrm, hh⟩
      · intro a ha _
        have halt : a < hp.length := hval a ha
        obtain ⟨p, hpm, nd, ndp, hnd, hndpar, hndp, hchild⟩ := hpar a (mem_dupLast.mpr ha)
        obtain ⟨ndp2, l, rr, hndp2, hpnone, hl, hrr, hlm, hrm, -⟩ := hnew p hpm
        rw [hndp] at hndp2
        cases hndp2
        have hple : hp.length ≤ p := ((hpsmem p).mp hpm).1
        have hanot : a ∉ ps := fun hm => by
          have := ((hpsmem a).mp hm).1
          omega
        obtain ⟨nd', hnd', -, -, -, hpk⟩ := e' a nd hnd
        obtain ⟨ndp', hndp', -, hl', hr', -⟩ := e' p ndp hndp
        have hsub : Path hp' p r (Nat.clog 2 ps.length) :=
          hpath p hpm (fun _ => ⟨ndp, hndp, hpnone⟩)
        have hclog : Nat.clog 2 nodes.length = Nat.clog 2 ps.length + 1 := by
          rw [Nat.clog_of_two_le (by omega) (by omega), hpslen]
          have hsimp : nodes.length + 2 - 1 = nodes.length + 1 := by omega
          rw [hsimp]
        rw [hclog]
        refine Path.step a p r _ nd' ndp' l rr hnd' ((hpk hanot).trans hndpar) (by omega) hndp'
          (hl'.trans hl) (hr'.trans hrr) ?_ ?_ ?_ hsub
        · have := hdval l hlm
          omega
        · have := hdval rr hrm
          omega
        · rcases hchild with hc | hc
          · rw [hl] at hc
            exact Or.inl (Option.some.inj hc).symm
          · rw [hrr] at hc
            exact Or.inr (Option.some.inj hc).symm

/-! ## GetProof on a linked heap -/

theorem Path.bound {hp : Heap} {a r k : Nat} (hpath : Path hp a r k) :
    a + k ≤ r ∧ r < hp.length := by
  induction hpath with
  | root r nd hnd _ => exact ⟨Nat.le_refl _, lt_of_get hnd⟩
  | step a p r k nd ndp l rr _ _ hlt _ _ _ _ _ _ _ ih => exact ⟨by omega, ih.2⟩

/-- The walk of `GetProof` from a node that is `k` links below `r` returns `k` entries, and on a
heap with consistent digests folding them over the node's digest gives the digest of `r`. -/
theorem climb_of_path {σ : Type} (h : Hasher σ) {hp : Heap} {a r k : Nat}
    (hpath : Path hp a r k) :
    ∀ (fuel : Nat), k ≤ fuel → ∀ (nd : Node), hp[a]? = some nd →
      ∀ (path : List Bytes) (idxs : List Int),
      ∃ path' idxs', climb hp fuel a nd.Parent path idxs = .ok (path ++ path', idxs ++ idxs') ∧
        path'.length = k ∧ idxs'.length = k ∧
        (HashOK h hp → verifyLoop h path' idxs' nd.Hash = .ok (hashAt hp r)) := by
  induction hpath with
  | root r nd0 hnd0 hnone =>
    intro fuel _ nd hnd path idxs
    rw [hnd0] at hnd
    cases hnd
    refine ⟨[], [], ?_, rfl, rfl, fun _ => ?_⟩
    · rw [hnone]
      cases fuel <;> simp [climb]
    · simp [verifyLoop, hashAt_eq hnd0]
  | step a p r k nd0 ndp l rr hnd0 hpar _ hndp hl hrr hllt hrlt hchild _ ih =>
    intro fuel hfuel nd hnd path idxs
    rw [hnd0] at hnd
    cases hnd
    obtain ⟨f, rfl⟩ : ∃ f, fuel = f + 1 := ⟨fuel - 1, by omega⟩
    obtain ⟨ndl, hndl⟩ := get_of_lt hllt
    obtain ⟨ndr, hndr⟩ := get_of_lt hrlt
    by_cases heq : nd0.Hash = ndl.Hash
    · obtain ⟨path', idxs', hrun, hlp, hli, hfold⟩ :=
        ih f (by omega) ndp hndp (path ++ [ndr.Hash]) (idxs ++ [1])
      refine ⟨ndr.Hash :: path', 1 :: idxs', ?_, by simp [hlp], by simp [hli], fun hok => ?_⟩
      · rw [hpar]
        simp only [climb, deref_eq_ok hnd0, deref_eq_ok hndp, hl, hrr, derefPtr,
          deref_eq_ok hndl, deref_eq_ok hndr, bind, Except.bind, heq, ↓reduceIte]
        rw [hrun]
        simp
      · obtain ⟨-, -, hh⟩ := hok p ndp l rr hndp hl hrr
        rw [hashAt_eq hndl, hashAt_eq hndr, ← heq] at hh
        simp only [verifyLoop, one_ne_zero, ↓reduceIte]
        rw [← hh]
        exact hfold hok
    · obtain ⟨path', idxs', hrun, hlp, hli, hfold⟩ :=
        ih f (by omega) ndp hndp (path ++ [ndl.Hash]) (idxs ++ [0])
      refine ⟨ndl.Hash :: path', 0 :: idxs', ?_, by simp [hlp], by simp [hli], fun hok => ?_⟩
      · rw [hpar]
        simp only [climb, deref_eq_ok hnd0, deref_eq_ok hndp, hl, derefPtr,
          deref_eq_ok hndl, bind, Except.bind, heq, ↓reduceIte]
        rw [hrun]
        simp
      · have har : a = rr := by
          rcases hchild with hc | hc
          · subst hc
            rw [hnd0] at hndl
            cases hndl
            exact absurd rfl heq
          · exact hc
        subst har
        rw [hnd0] at hndr
        cases hndr
        obtain ⟨-, -, hh⟩ := hok p ndp l a hndp hl hrr
        rw [hashAt_eq hndl, hashAt_eq hnd0] at hh
        simp only [verifyLoop, ↓reduceIte]
        rw [← hh]
        exact hfold hok

/-- The scan of `GetProof` over the leaves stops at a leaf with the wanted digest when there is
one, and runs to the end otherwise. -/
theorem findLeaf_spec (hp : Heap) (x : Bytes) :
    ∀ (ls : List Nat), (∀ a ∈ ls, a < hp.length) →
      ((∀ a ∈ ls, hashAt hp a ≠ x) ∧ findLeaf hp x ls = .ok none) ∨
      (∃ a ∈ ls, hashAt hp a = x ∧ findLeaf hp x ls = .ok (some a))
  | [], _ => Or.inl ⟨by simp, rfl⟩
  | a :: rest, hval => by
    obtain ⟨nd, hnd⟩ := get_of_lt (hval a (by simp))
    by_cases hx : nd.Hash = x
    · right
      exact ⟨a, by simp, by rw [hashAt_eq hnd]; exact hx,
        by simp [findLeaf, deref_eq_ok hnd, bind, Except.bind, hx]⟩
    · have hrun : findLeaf hp x (a :: rest) = findLeaf hp x rest := by
        simp [findLeaf, deref_eq_ok hnd, bind, Except.bind, hx]
      rcases findLeaf_spec hp x rest (fun b hb => hval b (by simp [hb])) with ⟨hno, hr⟩ | ⟨b, hb, hbx, hr⟩
      · left
        refine ⟨fun b hb => ?_, hrun.trans hr⟩
        rcases List.mem_cons.mp hb with rfl | hb
        · rw [hashAt_eq hnd]; exact hx
        · exact hno b hb
      · right
        exact ⟨b, by simp [hb], hbx, hrun.trans hr⟩

theorem GetProof_notFound {σ : Type} (t : Tree σ) (hp : Heap) (x : Bytes)
    (hval : ∀ a ∈ t.Leaves, a < hp.length) (hno : ∀ a ∈ t.Leaves, hashAt hp a ≠ x) :
    GetProof t hp x = .ok ([], [], some errNotFound) := by
  rcases findLeaf_spec hp x t.Leaves hval with ⟨-, hr⟩ | ⟨a, ha, hax, -⟩
  · simp [GetProof, hr, bind, Except.bind]
  · exact absurd hax (hno a ha)

theorem GetProof_found {σ : Type} (t : Tree σ) (hp : Heap) (x : Bytes) (r k : Nat)
    (hpath : ∀ a ∈ t.Leaves, Path hp a r k) (hx : ∃ a ∈ t.Leaves, hashAt hp a = x) :
    ∃ path idxs, GetProof t hp x = .ok (path, idxs, none) ∧ path.length = k ∧
      idxs.length = k ∧ (HashOK t.h hp → verifyLoop t.h path idxs x = .ok (hashAt hp r)) := by
  have hval : ∀ a ∈ t.Leaves, a < hp.length := fun a ha => by
    have := (hpath a ha).bound
    omega
  rcases findLeaf_spec hp x t.Leaves hval with ⟨hno, -⟩ | ⟨a, ha, hax, hr⟩
  · obtain ⟨a, ha, hax⟩ := hx
    exact absurd hax (hno a ha)
  · obtain ⟨nd, hnd⟩ := get_of_lt (hval a ha)
    have hb := (hpath a ha).bound
    obtain ⟨path, idxs, hrun, hlp, hli, hfold⟩ :=
      climb_of_path t.h (hpath a ha) hp.length (by omega) nd hnd [] []
    refine ⟨path, idxs, ?_, hlp, hli, fun hok => ?_⟩
    · simp only [GetProof, hr, bind, Except.bind, deref_eq_ok hnd, hrun]
      simp
    · rw [← hax, hashAt_eq hnd]
      exact hfold hok

/-! ## The constructor -/

theorem addLeaves_eq : ∀ (ds : List Bytes) (hp : Heap) (leaves : List Nat),
    addLeaves ds hp leaves = (hp ++ ds.map leafCell, leaves ++ List.range' hp.length ds.length)
  | [], hp, leaves => by simp [addLeaves]
  | d :: ds, hp, leaves => by
    rw [addLeaves, addLeaves_eq ds]
    simp [leafCell, List.range'_succ]

theorem buildRoot_of_loop {σ : Type} (t : Tree σ) (hp hp' : Heap) (r : Nat)
    (hrun : buildLoop t.h t.Leaves.length t.Leaves hp = .ok (hp', [r])) :
    buildRoot t hp = .ok (hp', r) := by
  simp [buildRoot, hrun, bind, Except.bind]

theorem leafHeap_get {hashes : List Bytes} {a : Nat} {nd : Node}
    (h : (hashes.map leafCell)[a]? = some nd) : ∃ d, hashes[a]? = some d ∧ nd = leafCell d := by
  rw [List.getElem?_map] at h
  cases hd : hashes[a]? with
  | none => rw [hd] at h; cases h
  | some d => rw [hd] at h; exact ⟨d, rfl, (Option.some.inj h).symm⟩

theorem leafHeap_hashes (hashes : List Bytes) :
    (List.range hashes.length).map (hashAt (hashes.map leafCell)) = hashes := by
  apply List.ext_getElem?
  intro i
  by_cases hi : i < hashes.length
  · simp [List.getElem?_map, List.getElem?_range hi, hashAt, List.getElem?_eq_getElem hi,
      leafCell]
  · rw [List.getElem?_eq_none (by simpa using hi), List.getElem?_eq_none (by simpa using hi)]

/-- The state `NewFromHashes` returns on a non-empty list: the leaves are the first cells of the
heap, in order and with the given digests; they are all linked to the root by `Nat.clog 2 n`
parent links; every inner cell holds the digest of its children; and the digest of the root is the
bottom-up root of the list. -/
theorem NewFromHashes_spec {σ : Type} (h : Hasher σ) (hashes : List Bytes) (hne : hashes ≠ []) :
    ∃ hp r, NewFromHashes hashes h =
        .ok (hp, { Root := some r, Leaves := List.range hashes.length, h := h }) ∧
      r < hp.length ∧
      (List.range hashes.length).map (hashAt hp) = hashes ∧
      some (hashAt hp r) = specRoot h hashes ∧
      HashOK h hp ∧
      (∀ a ∈ List.range hashes.length, Path hp a r (Nat.clog 2 hashes.length)) ∧
      (hashes.length = 1 → r = 0) ∧
      (1 < hashes.length → hashes.length ≤ r) := by
  have hlen0 : (hashes.map leafCell).length = hashes.length := by simp
  have hval : ∀ a ∈ List.range hashes.length, a < (hashes.map leafCell).length := by
    intro a ha; simpa using ha
  have hrne : List.range hashes.length ≠ [] := by
    intro hc
    have := congrArg List.length hc
    simp at this
    exact hne this
  obtain ⟨hp, r, hrun, hrlt, e, hone, hmany, hroot, hok, hpath⟩ :=
    buildLoop_spec h (List.range hashes.length).length (List.range hashes.length)
      (hashes.map leafCell) hrne (Nat.le_refl _) hval
  have hok0 : HashOK h (hashes.map leafCell) := by
    intro p nd l r hnd hl _
    obtain ⟨d, -, rfl⟩ := leafHeap_get hnd
    simp [leafCell] at hl
  refine ⟨hp, r, ?_, hrlt, ?_, ?_, hok hok0, ?_, ?_, ?_⟩
  · have hb := buildRoot_of_loop
      ({ Root := none, Leaves := List.range hashes.length, h := h } : Tree σ) _ _ _ hrun
    simp only [NewFromHashes, addLeaves_eq, List.nil_append, List.length_nil, bind, Except.bind]
    rw [← List.range_eq_range', hb]
  · exact (List.map_congr_left (fun a ha => e.hashAt (hval a ha))).trans
      (leafHeap_hashes hashes)
  · rw [hroot, leafHeap_hashes]
  · intro a ha
    have hp' := hpath a ha (fun _ => by
      obtain ⟨nd, hnd⟩ := get_of_lt (hval a ha)
      obtain ⟨d, -, rfl⟩ := leafHeap_get hnd
      exact ⟨_, hnd, rfl⟩)
    simpa using hp'
  · intro h1
    have := (hone (by simpa using h1)).2
    rw [h1] at this
    simp [List.range_succ] at this
    exact this.symm
  · intro h1
    have := (hmany (by simpa using h1)).1
    simpa using this

/-! ## Properties of the fresh tree -/

theorem rootDigest_eq {σ : Type} (t : Tree σ) (hp : Heap) (r : Nat) (hr : t.Root = some r)
    (hlt : r < hp.length) : rootDigest t hp = .ok (hashAt hp r) := by
  obtain ⟨nd, hnd⟩ := get_of_lt hlt
  simp [rootDigest, hr, derefPtr, deref_eq_ok hnd, hashAt_eq hnd, bind, Except.bind]

theorem mem_leaves_of_mem {hashes : List Bytes} {hp : Heap} {x : Bytes}
    (hmap : (List.range hashes.length).map (hashAt hp) = hashes) (hx : x ∈ hashes) :
    ∃ a ∈ List.range hashes.length, hashAt hp a = x := by
  rw [← hmap] at hx
  exact List.mem_map.mp hx

theorem VerifyProof_of_loop {σ : Type} (h : Hasher σ) (root value : Bytes) (proofs : List Bytes)
    (idxs : List Int) (out : Bytes) (hrun : verifyLoop h proofs idxs value = .ok out) :
    VerifyProof root value proofs idxs h = .ok (decide (root = out)) := by
  simp [VerifyProof, hrun, bind, Except.bind]

theorem rootOfHashes_spec {σ : Type} (h : Hasher σ) (hashes : List Bytes) (hne : hashes ≠ []) :
    ∃ root, rootOfHashes hashes h = .ok root ∧ specRoot h hashes = some root := by
  obtain ⟨hp, r, hnew, hrlt, -, hroot, -⟩ := NewFromHashes_spec h hashes hne
  refine ⟨hashAt hp r, ?_, hroot.symm⟩
  simp only [rootOfHashes, hnew, bind, Except.bind]
  exact rootDigest_eq _ hp r rfl hrlt

/-- C1. Round trip: for every hasher, every list of leaf digests and every digest `x` occurring
in it, the tree built by `NewFromHashes` gives for `x` a proof with a nil error, and
`VerifyProof` accepts that proof against the root digest of the tree. -/
theorem getProof_verifyProof_roundtrip {σ : Type} (h : Hasher σ) (hashes : List Bytes)
    (x : Bytes) (hx : x ∈ hashes) :
    ∃ hp t root path idxs, NewFromHashes hashes h = .ok (hp, t) ∧
      rootDigest t hp = .ok root ∧ GetProof t hp x = .ok (path, idxs, none) ∧
      VerifyProof root x path idxs h = .ok true := by
  have hne : hashes ≠ [] := List.ne_nil_of_mem hx
  obtain ⟨hp, r, hnew, hrlt, hmap, -, hok, hpath, -⟩ := NewFromHashes_spec h hashes hne
  obtain ⟨path, idxs, hget, -, -, hfold⟩ :=
    GetProof_found ({ Root := some r, Leaves := List.range hashes.length, h := h } : Tree σ)
      hp x r _ hpath (mem_leaves_of_mem hmap hx)
  refine ⟨hp, _, hashAt hp r, path, idxs, hnew, rootDigest_eq _ hp r rfl hrlt, hget, ?_⟩
  rw [VerifyProof_of_loop h _ _ _ _ _ (hfold hok)]
  simp

theorem getProof_verifyProof_roundtrip_witness :
    ([2] : Bytes) ∈ ([[1], [2], [3]] : List Bytes) ∧
    ∃ hp t root path idxs, NewFromHashes [[1], [2], [3]] polyHasher = .ok (hp, t) ∧
      rootDigest t hp = .ok root ∧ GetProof t hp [2] = .ok (path, idxs, none) ∧
      VerifyProof root [2] path idxs polyHasher = .ok true :=
  ⟨by decide, getProof_verifyProof_roundtrip polyHasher [[1], [2], [3]] [2] (by decide)⟩

/-- C2. At the empty list `NewFromHashes` does not return a tree: `buildRoot` skips its loop and
`return nodes[0]` indexes an empty slice, which panics. -/
theorem NewFromHashes_nil_panics {σ : Type} (h : Hasher σ) :
    NewFromHashes [] h = .error .panic := by
  simp [NewFromHashes, addLeaves, buildRoot, buildLoop, bind, Except.bind]

/-- C3 as stated fails: with a one-entry path and no position, `VerifyProof` reads `idxs[0]`
out of range and panics. -/
theorem VerifyProof_short_idxs_panics :
    VerifyProof [1] [1] [[2]] [] idHasher = .error .panic := by
  decide

theorem verifyLoop_ok_iff {σ : Type} (h : Hasher σ) :
    ∀ (proofs : List Bytes) (idxs : List Int) (value : Bytes),
      ((∃ out, verifyLoop h proofs idxs value = .ok out) ↔ proofs.length ≤ idxs.length) ∧
      (verifyLoop h proofs idxs value = .error .panic ↔ idxs.length < proofs.length)
  | [], idxs, value => by simp [verifyLoop]
  | _ :: _, [], value => by simp [verifyLoop]
  | p :: proofs, i :: idxs, value => by
    by_cases hi : i = 0
    · have ih := verifyLoop_ok_iff h proofs idxs (h.Hash [p, value])
      simpa [verifyLoop, hi] using ih
    · have ih := verifyLoop_ok_iff h proofs idxs (h.Hash [value, p])
      simpa [verifyLoop, hi] using ih

/-- C3, amended. `VerifyProof` returns a boolean exactly when the position list is at least as
long as the proof path, whatever values the positions hold; it panics exactly when the position
list is shorter than the path. -/
theorem VerifyProof_returns_iff {σ : Type} (h : Hasher σ) (root value : Bytes)
    (proofs : List Bytes) (idxs : List Int) :
    ((∃ b, VerifyProof root value proofs idxs h = .ok b) ↔ proofs.length ≤ idxs.length) ∧
    (VerifyProof root value proofs idxs h = .error .panic ↔ idxs.length < proofs.length) := by
  obtain ⟨h1, h2⟩ := verifyLoop_ok_iff h proofs idxs value
  constructor
  · rw [← h1]
    constructor
    · rintro ⟨b, hb⟩
      cases hr : verifyLoop h proofs idxs value with
      | ok out => exact ⟨out, rfl⟩
      | error e => simp [VerifyProof, hr, bind, Except.bind] at hb
    · rintro ⟨out, hout⟩
      exact ⟨_, VerifyProof_of_loop h root value proofs idxs out hout⟩
  · rw [← h2]
    cases hr : verifyLoop h proofs idxs value with
    | ok out => simp [VerifyProof, hr, bind, Except.bind]
    | error e => simp [VerifyProof, hr, bind, Except.bind]

/-- C4 as stated fails at `n = 1`: the root of a single leaf is the leaf digest itself, while two
copies of it are hashed together. -/
theorem odd_duplication_fails_single_leaf :
    ([[1]] : List Bytes).length % 2 = 1 ∧
    rootOfHashes [[1]] polyHasher = .ok [1] ∧
    rootOfHashes ([[1]] ++ [[1]]) polyHasher = .ok [8] := by
  decide

theorem padOdd_of_odd {xs : List Bytes} {last : Bytes} (hodd : xs.length % 2 = 1)
    (hlast : xs.getLast? = some last) : padOdd xs = xs ++ [last] := by
  simp [padOdd, hodd, hlast]

theorem padOdd_of_even {xs : List Bytes} (heven : xs.length % 2 = 0) : padOdd xs = xs := by
  simp [padOdd, heven]

/-- C4, amended. For every hasher and every list of leaf digests of odd length `n ≥ 3`, the root
digest of `NewFromHashes` on the list equals the root digest on the list with one more copy of its
last digest appended. -/
theorem odd_duplication_root {σ : Type} (h : Hasher σ) (hashes : List Bytes) (last : Bytes)
    (hodd : hashes.length % 2 = 1) (hlen : 3 ≤ hashes.length)
    (hlast : hashes.getLast? = some last) :
    ∃ root, rootOfHashes hashes h = .ok root ∧
      rootOfHashes (hashes ++ [last]) h = .ok root := by
  have hne : hashes ≠ [] := by
    intro hc; rw [hc] at hlen; simp at hlen
  obtain ⟨root, hrun, hspec⟩ := rootOfHashes_spec h hashes hne
  obtain ⟨root', hrun', hspec'⟩ := rootOfHashes_spec h (hashes ++ [last]) (by simp)
  have hstep : specStep h (hashes ++ [last]) = specStep h hashes := by
    unfold specStep
    rw [padOdd_of_odd hodd hlast, padOdd_of_even (by simp; omega)]
  rw [specRoot_step h _ (by simp; omega), hstep, ← specRoot_step h _ (by omega), hspec] at hspec'
  cases hspec'
  exact ⟨root, hrun, hrun'⟩

theorem odd_duplication_root_witness :
    ([[1], [2], [3]] : List Bytes).length % 2 = 1 ∧ 3 ≤ ([[1], [2], [3]] : List Bytes).length ∧
    ([[1], [2], [3]] : List Bytes).getLast? = some [3] ∧
    ∃ root, rootOfHashes [[1], [2], [3]] polyHasher = .ok root ∧
      rootOfHashes ([[1], [2], [3]] ++ [[3]]) polyHasher = .ok root :=
  ⟨by decide, by decide, by decide,
    odd_duplication_root polyHasher [[1], [2], [3]] [3] (by decide) (by decide) (by decide)⟩

/-! ## Tamper detection on the claimed digest -/

theorem verifyLoop_ne {σ : Type} (h : Hasher σ) (hcf : CollisionFree h) :
    ∀ (proofs : List Bytes) (idxs : List Int) (v w out : Bytes), v ≠ w →
      verifyLoop h proofs idxs v = .ok out → ∃ out', verifyLoop h proofs idxs w = .ok out' ∧
        out' ≠ out
  | [], idxs, v, w, out, hvw, hrun => by
    simp only [verifyLoop, Except.ok.injEq] at hrun ⊢
    exact ⟨w, rfl, fun hc => hvw (hrun.trans hc.symm)⟩
  | _ :: _, [], v, w, out, _, hrun => by simp [verifyLoop] at hrun
  | p :: proofs, i :: idxs, v, w, out, hvw, hrun => by
    by_cases hi : i = 0
    · simp only [verifyLoop, hi, ↓reduceIte] at hrun ⊢
      refine verifyLoop_ne h hcf proofs idxs _ _ out (hcf _ _ _ _ ?_) hrun
      simpa using hvw
    · simp only [verifyLoop, hi, ↓reduceIte] at hrun ⊢
      refine verifyLoop_ne h hcf proofs idxs _ _ out (hcf _ _ _ _ ?_) hrun
      simpa using hvw

theorem idHasher_hash (a b : Bytes) : idHasher.Hash [a, b] = a ++ b := by
  simp [Hasher.Hash, idHasher, idImp]

theorem idHasher_collisionFree : CollisionFree idHasher := by
  intro a b c d hne
  rw [idHasher_hash, idHasher_hash]
  exact hne

/-- C5. Tamper detection: with a collision-free hash function, the proof that the fresh tree
gives for a digest `x` of the list is rejected by `VerifyProof` for every claimed digest `v`
other than `x`, against the same root. -/
theorem verifyProof_rejects_other_digest {σ : Type} (h : Hasher σ) (hashes : List Bytes)
    (x v : Bytes) (hcf : CollisionFree h) (hx : x ∈ hashes) (hv : v ≠ x) :
    ∃ hp t root path idxs, NewFromHashes hashes h = .ok (hp, t) ∧
      rootDigest t hp = .ok root ∧ GetProof t hp x = .ok (path, idxs, none) ∧
      VerifyProof root v path idxs h = .ok false := by
  have hne : hashes ≠ [] := List.ne_nil_of_mem hx
  obtain ⟨hp, r, hnew, hrlt, hmap, -, hok, hpath, -⟩ := NewFromHashes_spec h hashes hne
  obtain ⟨path, idxs, hget, -, -, hfold⟩ :=
    GetProof_found ({ Root := some r, Leaves := List.range hashes.length, h := h } : Tree σ)
      hp x r _ hpath (mem_leaves_of_mem hmap hx)
  obtain ⟨out, hrun, hout⟩ := verifyLoop_ne h hcf path idxs x v _ (Ne.symm hv) (hfold hok)
  refine ⟨hp, _, hashAt hp r, path, idxs, hnew, rootDigest_eq _ hp r rfl hrlt, hget, ?_⟩
  rw [VerifyProof_of_loop h _ _ _ _ _ hrun]
  simp [Ne.symm hout]

theorem verifyProof_rejects_other_digest_witness :
    CollisionFree idHasher ∧ ([2] : Bytes) ∈ ([[1], [2], [3]] : List Bytes) ∧
    ([7] : Bytes) ≠ [2] ∧
    ∃ hp t root path idxs, NewFromHashes [[1], [2], [3]] idHasher = .ok (hp, t) ∧
      rootDigest t hp = .ok root ∧ GetProof t hp [2] = .ok (path, idxs, none) ∧
      VerifyProof root [7] path idxs idHasher = .ok false :=
  ⟨idHasher_collisionFree, by decide, by decide,
    verifyProof_rejects_other_digest idHasher [[1], [2], [3]] [2] [7] idHasher_collisionFree
      (by decide) (by decide)⟩

/-! ## The root digest and the depth -/

/-- C8. The root digest of the tree `NewFromHashes` builds on a non-empty list is the digest the
bottom-up definition of section 4.2 gives on the list of leaf digests: it depends on the ordered
leaf digests and the hasher only. -/
theorem root_eq_specRoot {σ : Type} (h : Hasher σ) (hashes : List Bytes) (hne : hashes ≠ []) :
    ∃ hp t root, NewFromHashes hashes h = .ok (hp, t) ∧ rootDigest t hp = .ok root ∧
      specRoot h hashes = some root := by
  obtain ⟨hp, r, hnew, hrlt, -, hroot, -⟩ := NewFromHashes_spec h hashes hne
  exact ⟨hp, _, hashAt hp r, hnew, rootDigest_eq _ hp r rfl hrlt, hroot.symm⟩

theorem root_eq_specRoot_witness :
    ([[1], [2], [3]] : List Bytes) ≠ [] ∧
    ∃ hp t root, NewFromHashes [[1], [2], [3]] polyHasher = .ok (hp, t) ∧
      rootDigest t hp = .ok root ∧ specRoot polyHasher [[1], [2], [3]] = some root :=
  ⟨by decide, root_eq_specRoot polyHasher [[1], [2], [3]] (by decide)⟩

/-- C9. Logarithmic depth: on the tree freshly built from `n ≥ 1` leaf digests, every leaf lies
exactly `⌈log₂ n⌉` parent links below the root, and the proof that `GetProof` returns for a digest
of the list has exactly `⌈log₂ n⌉` entries, and as many positions. -/
theorem getProof_length_clog {σ : Type} (h : Hasher σ) (hashes : List Bytes) (x : Bytes)
    (hx : x ∈ hashes) :
    ∃ hp t r path idxs, NewFromHashes hashes h = .ok (hp, t) ∧ t.Root = some r ∧
      (∀ a ∈ t.Leaves, Path hp a r (Nat.clog 2 hashes.length)) ∧
      GetProof t hp x = .ok (path, idxs, none) ∧
      path.length = Nat.clog 2 hashes.length ∧ idxs.length = Nat.clog 2 hashes.length := by
  have hne : hashes ≠ [] := List.ne_nil_of_mem hx
  obtain ⟨hp, r, hnew, hrlt, hmap, -, hok, hpath, -⟩ := NewFromHashes_spec h hashes hne
  obtain ⟨path, idxs, hget, hlp, hli, -⟩ :=
    GetProof_found ({ Root := some r, Leaves := List.range hashes.length, h := h } : Tree σ)
      hp x r _ hpath (mem_leaves_of_mem hmap hx)
  exact ⟨hp, _, r, path, idxs, hnew, rfl, hpath, hget, hlp, hli⟩

theorem getProof_length_clog_witness :
    ([3] : Bytes) ∈ ([[1], [2], [3]] : List Bytes) ∧
    ∃ hp t r path idxs, NewFromHashes [[1], [2], [3]] polyHasher = .ok (hp, t) ∧
      t.Root = some r ∧
      (∀ a ∈ t.Leaves, Path hp a r (Nat.clog 2 ([[1], [2], [3]] : List Bytes).length)) ∧
      GetProof t hp [3] = .ok (path, idxs, none) ∧
      path.length = Nat.clog 2 ([[1], [2], [3]] : List Bytes).length ∧
      idxs.length = Nat.clog 2 ([[1], [2], [3]] : List Bytes).length :=
  ⟨by decide, getProof_length_clog polyHasher [[1], [2], [3]] [3] (by decide)⟩

/-! ## The reachable states -/

theorem Path.zero_inv {hp : Heap} {a r : Nat} (hpath : Path hp a r 0) :
    ∃ nd, hp[a]? = some nd ∧ nd.Parent = none := by
  cases hpath with
  | root _ nd hnd hnone => exact ⟨nd, hnd, hnone⟩

/-- A heap with the same link fields has the same paths. -/
theorem Path.of_links {hp hp' : Heap} (hlen : hp'.length = hp.length)
    (hlinks : ∀ (a : Nat) (nd : Node), hp[a]? = some nd → ∃ nd' : Node, hp'[a]? = some nd' ∧
      nd'.Parent = nd.Parent ∧
      nd'.Left = nd.Left ∧ nd'.Right = nd.Right)
    {a r k : Nat} (hpath : Path hp a r k) : Path hp' a r k := by
  induction hpath with
  | root r nd hnd hnone =>
    obtain ⟨nd', hnd', hp1, -, -⟩ := hlinks r nd hnd
    exact Path.root r nd' hnd' (hp1.trans hnone)
  | step a p r k nd ndp l rr hnd hpar hlt hndp hl hrr hllt hrlt hchild _ ih =>
    obtain ⟨nd', hnd', hp1, -, -⟩ := hlinks a nd hnd
    obtain ⟨ndp', hndp', -, hl1, hr1⟩ := hlinks p ndp hndp
    exact Path.step a p r k nd' ndp' l rr hnd' (hp1.trans hpar) hlt hndp' (hl1.trans hl)
      (hr1.trans hrr) (by omega) (by omega) hchild ih

/-- The assignment `a.Hash = d` succeeds on a valid address and touches that field only. -/
theorem setHash_spec {hp : Heap} {a : Nat} {nd : Node} (d : Bytes) (hnd : hp[a]? = some nd) :
    ∃ hp', setHash hp a d = .ok hp' ∧ hp'.length = hp.length ∧
      hp'[a]? = some { nd with Hash := d } ∧ (∀ b, b ≠ a → hp'[b]? = hp[b]?) := by
  refine ⟨hp.set a { nd with Hash := d }, by simp [setHash, hnd], by simp, ?_, ?_⟩
  · rw [List.getElem?_set_self (lt_of_get hnd)]
  · intro b hb
    rw [List.getElem?_set_ne (Ne.symm hb)]

theorem setHash_links {hp hp' : Heap} {a : Nat} {d : Bytes} (hrun : setHash hp a d = .ok hp') :
    hp'.length = hp.length ∧ ∀ (b : Nat) (nd : Node), hp[b]? = some nd →
      ∃ nd' : Node, hp'[b]? = some nd' ∧
      nd'.Parent = nd.Parent ∧ nd'.Left = nd.Left ∧ nd'.Right = nd.Right := by
  cases ha : hp[a]? with
  | none => simp [setHash, ha] at hrun
  | some nda =>
    obtain ⟨hp1, hrun1, hlen, hself, hoth⟩ := setHash_spec d ha
    rw [hrun] at hrun1
    cases hrun1
    refine ⟨hlen, fun b nd hnd => ?_⟩
    by_cases hb : b = a
    · subst hb
      rw [ha] at hnd
      cases hnd
      exact ⟨_, hself, rfl, rfl, rfl⟩
    · exact ⟨nd, by rw [hoth b hb]; exact hnd, rfl, rfl, rfl⟩

theorem NewFromHashes_ok_ne_nil {σ : Type} {h : Hasher σ} {hashes : List Bytes} {hp : Heap}
    {t : Tree σ} (hrun : NewFromHashes hashes h = .ok (hp, t)) : hashes ≠ [] := by
  intro hc
  subst hc
  simp [NewFromHashes, addLeaves, buildRoot, buildLoop, bind, Except.bind] at hrun

/-- What `buildRoot` does on a heap where the leaves of the tree are linked to a root. -/
theorem buildRoot_spec {σ : Type} (t : Tree σ) (hp : Heap) (r0 : Nat) (hne : t.Leaves ≠ [])
    (hpath : ∀ a ∈ t.Leaves, Path hp a r0 (Nat.clog 2 t.Leaves.length)) :
    ∃ hp' r, buildRoot t hp = .ok (hp', r) ∧ r < hp'.length ∧ Ext hp hp' t.Leaves ∧
      (t.Leaves.length = 1 → hp' = hp) ∧
      some (hashAt hp' r) = specRoot t.h (t.Leaves.map (hashAt hp)) ∧
      (∀ a ∈ t.Leaves, Path hp' a r (Nat.clog 2 t.Leaves.length)) := by
  have hval : ∀ a ∈ t.Leaves, a < hp.length := fun a ha => by
    have := (hpath a ha).bound
    omega
  obtain ⟨hp', r, hrun, hrlt, e, hone, -, hroot, -, hp2⟩ :=
    buildLoop_spec t.h t.Leaves.length t.Leaves hp hne (Nat.le_refl _) hval
  refine ⟨hp', r, buildRoot_of_loop t hp hp' r hrun, hrlt, e, fun h1 => (hone h1).1, hroot,
    fun a ha => hp2 a ha (fun h1 => ?_)⟩
  have hpa := hpath a ha
  rw [h1, Nat.clog_one_right] at hpa
  exact hpa.zero_inv

/-- In every reachable state the leaves of the tree are linked to one root, all at the same
depth. -/
theorem Reachable.linked {σ : Type} {hp : Heap} {t : Tree σ} (hreach : Reachable hp t) :
    t.Leaves ≠ [] ∧ ∃ r, ∀ a ∈ t.Leaves, Path hp a r (Nat.clog 2 t.Leaves.length) := by
  induction hreach with
  | build hashes h hp t hrun =>
    have hne := NewFromHashes_ok_ne_nil hrun
    obtain ⟨hp0, r, hnew, -, -, -, -, hpath, -⟩ := NewFromHashes_spec h hashes hne
    rw [hrun] at hnew
    cases hnew
    refine ⟨?_, r, by simpa using hpath⟩
    intro hc
    have := congrArg List.length hc
    simp at this
    exact hne this
  | overwrite hp hp' t i d _ hrun ih =>
    obtain ⟨hne, r, hpath⟩ := ih
    refine ⟨hne, r, fun a ha => ?_⟩
    cases hi : t.Leaves[i]? with
    | none => simp [overwriteLeaf, hi] at hrun
    | some b =>
      simp only [overwriteLeaf, hi] at hrun
      obtain ⟨hlen, hlinks⟩ := setHash_links hrun
      exact (hpath a ha).of_links hlen hlinks
  | verify hp hp' t b _ hrun ih =>
    obtain ⟨hne, r, hpath⟩ := ih
    by_cases hguard : t.Leaves.length = 0 ∨ t.Root = none
    · simp only [Verify, hguard, ↓reduceIte, Except.ok.injEq, Prod.mk.injEq] at hrun
      rw [← hrun.2]
      exact ⟨hne, r, hpath⟩
    · obtain ⟨hp1, r1, hbuild, -, -, -, -, hpath1⟩ := buildRoot_spec t hp r hne hpath
      simp only [Verify, hguard, ↓reduceIte, hbuild, bind, Except.bind] at hrun
      refine ⟨hne, r1, ?_⟩
      cases hd1 : derefPtr hp1 t.Root with
      | error e => simp [hd1] at hrun
      | ok root =>
        cases hd2 : deref hp1 r1 with
        | error e => simp [hd1, hd2] at hrun
        | ok crn =>
          simp only [hd1, hd2, Except.ok.injEq, Prod.mk.injEq] at hrun
          rw [← hrun.2]
          exact hpath1

/-- C10. In every reachable state of a tree, `GetProof` returns the error "hash does not belong
to the tree", with an empty path and no positions, exactly when no leaf of the tree holds the
digest; when a leaf holds it, `GetProof` returns a nil error. -/
theorem getProof_error_iff_absent {σ : Type} (t : Tree σ) (hp : Heap) (x : Bytes)
    (hreach : Reachable hp t) :
    (GetProof t hp x = .ok ([], [], some errNotFound) ↔ ∀ a ∈ t.Leaves, hashAt hp a ≠ x) ∧
    ((∃ a ∈ t.Leaves, hashAt hp a = x) →
      ∃ path idxs, GetProof t hp x = .ok (path, idxs, none)) := by
  obtain ⟨-, r, hpath⟩ := hreach.linked
  have hval : ∀ a ∈ t.Leaves, a < hp.length := fun a ha => by
    have := (hpath a ha).bound
    omega
  have hfound : (∃ a ∈ t.Leaves, hashAt hp a = x) →
      ∃ path idxs, GetProof t hp x = .ok (path, idxs, none) := fun hx => by
    obtain ⟨path, idxs, hget, -⟩ := GetProof_found t hp x r _ hpath hx
    exact ⟨path, idxs, hget⟩
  refine ⟨⟨fun herr a ha hax => ?_, GetProof_notFound t hp x hval⟩, hfound⟩
  obtain ⟨path, idxs, hget⟩ := hfound ⟨a, ha, hax⟩
  rw [herr] at hget
  simp at hget

theorem getProof_error_iff_absent_witness :
    ∃ (hp : Heap) (t : Tree Byte), Reachable hp t ∧
      (GetProof t hp [9] = .ok ([], [], some errNotFound) ↔ ∀ a ∈ t.Leaves, hashAt hp a ≠ [9]) ∧
      ((∃ a ∈ t.Leaves, hashAt hp a = [9]) →
        ∃ path idxs, GetProof t hp [9] = .ok (path, idxs, none)) := by
  obtain ⟨hp, r, hnew, -⟩ := NewFromHashes_spec polyHasher [[1], [2], [3]] (by decide)
  exact ⟨hp, _, Reachable.build _ _ _ _ hnew,
    getProof_error_iff_absent _ hp [9] (Reachable.build _ _ _ _ hnew)⟩

/-! ## The levels, entry by entry -/

theorem padOdd_cons_cons (l r : Bytes) (rest : List Bytes) :
    padOdd (l :: r :: rest) = l :: r :: padOdd rest := by
  cases rest with
  | nil => simp [padOdd]
  | cons c rest' =>
    unfold padOdd
    have hpar : (l :: r :: c :: rest').length % 2 = (c :: rest').length % 2 := by
      simp only [List.length_cons]; omega
    rw [hpar]
    split
    · simp only [List.getLast?_cons_cons]
      cases (c :: rest').getLast? <;> simp
    · rfl

theorem specStep_cons_cons {σ : Type} (h : Hasher σ) (l r : Bytes) (rest : List Bytes) :
    specStep h (l :: r :: rest) = h.Hash [l, r] :: specStep h rest := by
  simp [specStep, padOdd_cons_cons, hashPairs]

theorem specStep_getElem? {σ : Type} (h : Hasher σ) :
    ∀ (xs : List Bytes) (j : Nat),
      (specStep h xs)[j]? = pairDigest h xs[2 * j]? xs[2 * j + 1]?
  | [], j => by simp [specStep, padOdd, hashPairs, pairDigest]
  | [x], j => by
    cases j with
    | zero => simp [specStep, padOdd, hashPairs, pairDigest]
    | succ j =>
      have h2 : 2 * (j + 1) = (2 * j + 1) + 1 := by omega
      simp [specStep, padOdd, hashPairs, pairDigest, h2]
  | l :: r :: rest, j => by
    rw [specStep_cons_cons]
    cases j with
    | zero => simp [pairDigest]
    | succ j =>
      have h2 : 2 * (j + 1) = (2 * j + 1) + 1 := by omega
      have h3 : 2 * (j + 1) + 1 = (2 * j + 1 + 1) + 1 := by omega
      rw [h3, h2]
      simp only [List.getElem?_cons_succ]
      exact specStep_getElem? h rest j

theorem append_self_ne {l l' : Bytes} (hne : l ≠ l') : l ++ l ≠ l' ++ l' := by
  intro hc
  have hlen : l.length = l'.length := by
    have := congrArg List.length hc
    simp only [List.length_append] at this
    omega
  exact hne (List.append_inj_left hc hlen)

/-- With a collision-free hash, two levels that differ at exactly one index are followed by two
levels that differ at exactly one index. -/
theorem DifferAtOne.step {σ : Type} {h : Hasher σ} (hcf : CollisionFree h) {xs ys : List Bytes}
    (hd : DifferAtOne xs ys) : DifferAtOne (specStep h xs) (specStep h ys) := by
  obtain ⟨hlen, i, hi, hoth⟩ := hd
  refine ⟨by rw [specStep_length, specStep_length, hlen], i / 2, ?_, fun j hj => ?_⟩
  · rw [specStep_getElem?, specStep_getElem?]
    rcases Nat.even_or_odd' i with ⟨k, hk | hk⟩
    · -- the left entry of the pair differs
      have hk2 : i / 2 = k := by omega
      rw [hk2, ← hk, hoth (i + 1) (by omega)]
      cases hx : xs[i]? with
      | none =>
        cases hy : ys[i]? with
        | none => rw [hx, hy] at hi; exact absurd rfl hi
        | some y =>
          have h1 := List.getElem?_eq_none_iff.mp hx
          have h2 := lt_of_lt_of_le (List.getElem?_eq_some_iff.mp hy).1 (le_of_eq hlen.symm)
          omega
      | some x =>
        cases hy : ys[i]? with
        | none =>
          have h1 := List.getElem?_eq_none_iff.mp hy
          have h2 := (List.getElem?_eq_some_iff.mp hx).1
          omega
        | some y =>
          have hxy : x ≠ y := fun hc => hi (by rw [hx, hy, hc])
          cases ys[i + 1]? with
          | none =>
            simp only [pairDigest, ne_eq, Option.some.injEq]
            exact hcf _ _ _ _ (append_self_ne hxy)
          | some r =>
            simp only [pairDigest, ne_eq, Option.some.injEq]
            exact hcf _ _ _ _ (by simpa using hxy)
    · -- the right entry of the pair differs
      have hk2 : i / 2 = k := by omega
      rw [hk2, ← hk, hoth (2 * k) (by omega)]
      cases hx : xs[i]? with
      | none =>
        cases hy : ys[i]? with
        | none => rw [hx, hy] at hi; exact absurd rfl hi
        | some y =>
          have h1 := List.getElem?_eq_none_iff.mp hx
          have h2 := lt_of_lt_of_le (List.getElem?_eq_some_iff.mp hy).1 (le_of_eq hlen.symm)
          omega
      | some x =>
        cases hy : ys[i]? with
        | none =>
          have h1 := List.getElem?_eq_none_iff.mp hy
          have h2 := (List.getElem?_eq_some_iff.mp hx).1
          omega
        | some y =>
          have hxy : x ≠ y := fun hc => hi (by rw [hx, hy, hc])
          have hlt : 2 * k < ys.length := by
            have := (List.getElem?_eq_some_iff.mp hy).1
            omega
          rw [List.getElem?_eq_getElem hlt]
          simp only [pairDigest, ne_eq, Option.some.injEq]
          exact hcf _ _ _ _ (by simpa using hxy)
  · rw [specStep_getElem?, specStep_getElem?, hoth (2 * j) (by omega),
      hoth (2 * j + 1) (by omega)]

theorem DifferAtOne.specRootAux_ne {σ : Type} {h : Hasher σ} (hcf : CollisionFree h) :
    ∀ (fuel : Nat) (xs ys : List Bytes), DifferAtOne xs ys → xs.length ≤ fuel →
      specRootAux h fuel xs ≠ specRootAux h fuel ys := by
  intro fuel
  induction fuel with
  | zero =>
    intro xs ys hd hlen
    obtain ⟨hl, i, hi, -⟩ := hd
    have hx : xs = [] := List.length_eq_zero.mp (by omega)
    have hy : ys = [] := List.length_eq_zero.mp (by omega)
    subst hx hy
    exact absurd rfl hi
  | succ f ih =>
    intro xs ys hd hlen
    match xs, ys, hd, hlen with
    | [], ys, hd, _ =>
      obtain ⟨hl, i, hi, -⟩ := hd
      have hy : ys = [] := List.length_eq_zero.mp (by simpa using hl.symm)
      subst hy
      exact absurd rfl hi
    | [x], [], hd, _ => exact absurd hd.1 (by simp)
    | [x], _ :: _ :: _, hd, _ => exact absurd hd.1 (by simp)
    | [x], [y], hd, _ =>
      obtain ⟨-, i, hi, hoth⟩ := hd
      cases i with
      | zero => simpa [specRootAux] using hi
      | succ n => exact absurd (by simp) hi
    | _ :: _ :: _, [], hd, _ => exact absurd hd.1 (by simp)
    | _ :: _ :: _, [_], hd, _ => exact absurd hd.1 (by simp)
    | l :: r :: rest, l' :: r' :: rest', hd, hlen =>
      simp only [specRootAux]
      refine ih _ _ (hd.step hcf) ?_
      rw [specStep_length]
      simp only [List.length_cons] at hlen ⊢
      omega

/-- With a collision-free hash, replacing one digest of a level by a different one changes the
bottom-up root. -/
theorem specRoot_set_ne {σ : Type} {h : Hasher σ} (hcf : CollisionFree h) (xs : List Bytes)
    (i : Nat) (old d : Bytes) (hi : xs[i]? = some old) (hd : d ≠ old) :
    specRoot h (xs.set i d) ≠ specRoot h xs := by
  have hlt : i < xs.length := (List.getElem?_eq_some_iff.mp hi).1
  have hdiff : DifferAtOne (xs.set i d) xs := by
    refine ⟨by simp, i, ?_, fun j hj => ?_⟩
    · rw [List.getElem?_set_self hlt, hi]
      simpa using hd
    · rw [List.getElem?_set_ne (Ne.symm hj)]
  have := DifferAtOne.specRootAux_ne hcf xs.length (xs.set i d) xs hdiff (by simp)
  unfold specRoot
  simpa using this

/-! ## Verify after a leaf overwrite -/

theorem deref_of_lt {hp : Heap} {a : Nat} (hlt : a < hp.length) :
    ∃ nd, deref hp a = .ok nd ∧ nd.Hash = hashAt hp a := by
  obtain ⟨nd, hnd⟩ := get_of_lt hlt
  exact ⟨nd, deref_eq_ok hnd, (hashAt_eq hnd).symm⟩

/-- The digests of the leaves after `t.Leaves[i].Hash = d` on the fresh tree. -/
theorem leafHashes_after_set {hashes : List Bytes} {hp hp1 : Heap} {i : Nat} {d : Bytes}
    {nd : Node} (hmap : (List.range hashes.length).map (hashAt hp) = hashes)
    (hself : hp1[i]? = some { nd with Hash := d }) (hoth : ∀ b, b ≠ i → hp1[b]? = hp[b]?) :
    (List.range hashes.length).map (hashAt hp1) = hashes.set i d := by
  apply List.ext_getElem?
  intro j
  by_cases hlt : j < hashes.length
  · have hj : some (hashAt hp j) = hashes[j]? := by
      have := congrArg (fun l => l[j]?) hmap
      simpa only [List.getElem?_map, List.getElem?_range hlt, Option.map_some'] using this
    rw [List.getElem?_map, List.getElem?_range hlt]
    simp only [Option.map_some']
    by_cases hji : j = i
    · subst hji
      rw [List.getElem?_set_self hlt]
      simp [hashAt, hself]
    · rw [List.getElem?_set_ne (Ne.symm hji), ← hj]
      simp [hashAt, hoth j hji]
  · rw [List.getElem?_eq_none (by simpa using hlt), List.getElem?_eq_none (by simpa using hlt)]

/-- C6 as stated fails on a tree of one leaf: the root is the leaf node itself, so the overwrite
changes the stored root too and `Verify` returns true. -/
theorem verify_misses_overwrite_single_leaf :
    CollisionFree idHasher ∧ ([[1]] : List Bytes)[0]? = some [1] ∧ ([2] : Bytes) ≠ [1] ∧
    buildOverwriteVerify [[1]] idHasher 0 [2] = .ok true :=
  ⟨idHasher_collisionFree, by decide, by decide, by decide⟩

/-- C6, amended. With a collision-free hash function, on every tree built by `NewFromHashes` from
at least two digests, overwriting the digest of one leaf with a different digest makes `Verify`
return false. -/
theorem verify_detects_overwrite {σ : Type} (h : Hasher σ) (hashes : List Bytes) (i : Nat)
    (old d : Bytes) (hcf : CollisionFree h) (hlen : 2 ≤ hashes.length)
    (hi : hashes[i]? = some old) (hd : d ≠ old) :
    buildOverwriteVerify hashes h i d = .ok false := by
  have hne : hashes ≠ [] := by
    intro hc; rw [hc] at hlen; simp at hlen
  have hilt : i < hashes.length := (List.getElem?_eq_some_iff.mp hi).1
  obtain ⟨hp, r, hnew, hrlt, hmap, hroot, -, hpath, -, hmany⟩ := NewFromHashes_spec h hashes hne
  have hnr : hashes.length ≤ r := hmany (by omega)
  obtain ⟨ndi, hndi⟩ := get_of_lt (show i < hp.length by omega)
  obtain ⟨hp1, hset, hlen1, hself, hoth⟩ := setHash_spec d hndi
  -- the second run of buildRoot, in Verify
  let t : Tree σ := { Root := some r, Leaves := List.range hashes.length, h := h }
  have hrne : t.Leaves ≠ [] := by
    intro hc
    have := congrArg List.length hc
    simp [t] at this
    exact hne this
  have hpath1 : ∀ a ∈ t.Leaves, Path hp1 a r (Nat.clog 2 t.Leaves.length) := by
    intro a ha
    have := hpath a ha
    simp only [t, List.length_range]
    exact this.of_links hlen1 (setHash_links hset).2
  obtain ⟨hp2, cr, hbuild, hcrlt, e, -, hroot2, -⟩ := buildRoot_spec t hp1 r hrne hpath1
  have hle2 := e.length_le
  obtain ⟨root, hderef, hrh⟩ := deref_of_lt (show r < hp2.length by omega)
  obtain ⟨crn, hderef2, hch⟩ := deref_of_lt hcrlt
  -- the two digests that Verify compares
  have h1 : hashAt hp2 r = hashAt hp r := by
    rw [e.hashAt (by omega)]
    unfold hashAt
    rw [hoth r (by omega)]
  have h2 : some (hashAt hp2 cr) = specRoot h (hashes.set i d) := by
    rw [hroot2]
    simp only [t]
    rw [leafHashes_after_set hmap hself hoth]
  have hneq : root.Hash ≠ crn.Hash := by
    rw [hrh, hch, h1]
    intro hc
    have := specRoot_set_ne hcf hashes i old d hi hd
    rw [← h2, ← hroot, hc] at this
    exact this rfl
  have hguard : ¬ (t.Leaves.length = 0 ∨ t.Root = none) := by
    simp only [t, List.length_range]
    rintro (hc | hc)
    · omega
    · cases hc
  have hverify : Verify t hp1 = .ok (false, hp2) := by
    simp only [Verify, hguard, ↓reduceIte, hbuild, bind, Except.bind]
    simp only [t, derefPtr, hderef, hderef2]
    simp [hneq]
  have hover : overwriteLeaf t hp i d = .ok hp1 := by
    simp only [overwriteLeaf, t, List.getElem?_range hilt]
    exact hset
  simp only [buildOverwriteVerify, hnew, bind, Except.bind]
  simp only [t] at hover hverify
  simp only [hover, hverify]

theorem verify_detects_overwrite_witness :
    CollisionFree idHasher ∧ 2 ≤ ([[1], [2], [3]] : List Bytes).length ∧
    ([[1], [2], [3]] : List Bytes)[1]? = some [2] ∧ ([9] : Bytes) ≠ [2] ∧
    buildOverwriteVerify [[1], [2], [3]] idHasher 1 [9] = .ok false :=
  ⟨idHasher_collisionFree, by decide, by decide, by decide,
    verify_detects_overwrite idHasher [[1], [2], [3]] 1 [2] [9] idHasher_collisionFree
      (by decide) (by decide) (by decide)⟩

/-! ## Every digest of every level is in the heap -/

theorem buildLoop_levels {σ : Type} (h : Hasher σ) :
    ∀ (fuel : Nat) (nodes : List Nat) (hp : Heap),
      nodes ≠ [] → nodes.length ≤ fuel → (∀ a ∈ nodes, a < hp.length) →
      ∀ (hp' : Heap) (r : Nat), buildLoop h fuel nodes hp = .ok (hp', [r]) →
      ∀ x ∈ levelDigests h fuel (nodes.map (hashAt hp)), ∃ a, a < hp'.length ∧ hashAt hp' a = x := by
  intro fuel
  induction fuel with
  | zero =>
    intro nodes hp hne hlen _
    exact absurd (List.length_eq_zero.mp (by omega)) hne
  | succ f ih =>
    intro nodes hp hne hlen hval hp' r hrun x hx
    by_cases h1 : nodes.length = 1
    · have hnot : ¬ 1 < nodes.length := by omega
      simp only [buildLoop, gt_iff_lt, hnot, ↓reduceIte, Except.ok.injEq, Prod.mk.injEq] at hrun
      simp only [levelDigests, List.length_map, hnot, ↓reduceIte] at hx
      obtain ⟨a, ha, hax⟩ := List.mem_map.mp hx
      rw [← hrun.1]
      exact ⟨a, hval a ha, hax⟩
    · have hpos : 0 < nodes.length := List.length_pos.mpr hne
      have h2 : 1 < nodes.length := by omega
      have hdl : (dupLast nodes).length = 2 * ((nodes.length + 1) / 2) := by
        rw [dupLast_length]; omega
      have hdval : ∀ a ∈ dupLast nodes, a < hp.length := fun a ha => hval a (mem_dupLast.mp ha)
      obtain ⟨hp1, ps, hrun1, hps, hlen1, e1, hmap, -, -⟩ :=
        pairLoop_spec h _ (dupLast nodes) hp [] hdl hdval
      simp only [List.nil_append] at hrun1
      have hpslen : ps.length = (nodes.length + 1) / 2 := by rw [hps]; simp
      have hpsne : ps ≠ [] := by
        intro hc
        rw [hc] at hpslen
        simp at hpslen
        omega
      have hpsval : ∀ p ∈ ps, p < hp1.length := by
        intro p hp_mem
        rw [hps] at hp_mem
        have := (mem_range'_one.mp hp_mem).2
        omega
      have hrun' : buildLoop h f ps hp1 = .ok (hp', [r]) := by
        rw [buildLoop] at hrun
        simpa only [gt_iff_lt, h2, ↓reduceIte, bind, Except.bind, hrun1] using hrun
      obtain ⟨hp'', r'', hrun'', -, e', -⟩ :=
        buildLoop_spec h f ps hp1 hpsne (by omega) hpsval
      rw [hrun'] at hrun''
      cases hrun''
      have hle1 := e1.length_le
      have hle' := e'.length_le
      simp only [levelDigests, List.length_map, h2, ↓reduceIte, List.mem_append] at hx
      rcases hx with hx | hx
      · obtain ⟨a, ha, hax⟩ := List.mem_map.mp hx
        have halt := hval a ha
        exact ⟨a, by omega, by rw [e'.hashAt (by omega), e1.hashAt halt, hax]⟩
      · have hlev : specStep h (nodes.map (hashAt hp)) = ps.map (hashAt hp1) := by
          rw [hmap, map_dupLast]
          rfl
        rw [hlev] at hx
        exact ih ps hp1 hpsne (by omega) hpsval hp' r hrun' x hx

theorem mem_treeDigests_of_level {σ : Type} (h : Hasher σ) (hashes : List Bytes)
    (hne : hashes ≠ []) :
    ∀ x ∈ levelDigests h hashes.length hashes, x ∈ treeDigests hashes h := by
  have hval : ∀ a ∈ List.range hashes.length, a < (hashes.map leafCell).length := by
    intro a ha; simpa using ha
  have hrne : List.range hashes.length ≠ [] := by
    intro hc
    have := congrArg List.length hc
    simp at this
    exact hne this
  obtain ⟨hp, r, hrun, -⟩ :=
    buildLoop_spec h (List.range hashes.length).length (List.range hashes.length)
      (hashes.map leafCell) hrne (Nat.le_refl _) hval
  have hnew : NewFromHashes hashes h =
      .ok (hp, { Root := some r, Leaves := List.range hashes.length, h := h }) := by
    have hb := buildRoot_of_loop
      ({ Root := none, Leaves := List.range hashes.length, h := h } : Tree σ) _ _ _ hrun
    simp only [NewFromHashes, addLeaves_eq, List.nil_append, List.length_nil, bind, Except.bind]
    rw [← List.range_eq_range', hb]
  intro x hx
  have hlev := buildLoop_levels h _ _ _ hrne (Nat.le_refl _) hval hp r hrun x
    (by rw [leafHeap_hashes]; simpa using hx)
  obtain ⟨a, halt, hax⟩ := hlev
  obtain ⟨nd, hnd⟩ := get_of_lt halt
  simp only [treeDigests, hnew, List.mem_map]
  exact ⟨nd, List.getElem?_mem hnd, by rw [← hax, hashAt_eq hnd]⟩


/-! ## Order sensitivity -/

/-- Digests of one length that collide nowhere as concatenations collide nowhere as pairs. -/
theorem pair_inj_of_collisionFreeOn {σ : Type} {h : Hasher σ} {S : List Bytes} {L : Nat}
    (hlen : ∀ x ∈ S, x.length = L) (hcf : CollisionFreeOn h S) {a b c d : Bytes}
    (ha : a ∈ S) (hb : b ∈ S) (hc : c ∈ S) (hd : d ∈ S)
    (heq : h.Hash [a, b] = h.Hash [c, d]) : a = c ∧ b = d := by
  by_contra hne
  refine hcf a ha b hb c hc d hd (fun happ => hne ?_) heq
  exact List.append_inj happ ((hlen a ha).trans (hlen c hc).symm)

theorem specStep_differ {σ : Type} {h : Hasher σ} {S : List Bytes} {L : Nat}
    (hlen : ∀ x ∈ S, x.length = L) (hcf : CollisionFreeOn h S) {xs ys : List Bytes}
    (hxs : ∀ x ∈ xs, x ∈ S) (hys : ∀ y ∈ ys, y ∈ S) (hl : xs.length = ys.length)
    {i : Nat} (hi : xs[i]? ≠ ys[i]?) :
    (specStep h xs)[i / 2]? ≠ (specStep h ys)[i / 2]? := by
  have hilt : i < xs.length := by
    by_contra hc
    apply hi
    rw [List.getElem?_eq_none (by omega), List.getElem?_eq_none (by omega)]
  have h0x : 2 * (i / 2) < xs.length := by omega
  have h0y : 2 * (i / 2) < ys.length := by omega
  rw [specStep_getElem?, specStep_getElem?, List.getElem?_eq_getElem h0x,
    List.getElem?_eq_getElem h0y]
  have hlS := hxs _ (List.getElem_mem h0x)
  have hlS' := hys _ (List.getElem_mem h0y)
  by_cases h1 : 2 * (i / 2) + 1 < xs.length
  · have h1y : 2 * (i / 2) + 1 < ys.length := by omega
    rw [List.getElem?_eq_getElem h1, List.getElem?_eq_getElem h1y]
    simp only [pairDigest, ne_eq, Option.some.injEq]
    intro heq
    obtain ⟨e1, e2⟩ := pair_inj_of_collisionFreeOn hlen hcf hlS (hxs _ (List.getElem_mem h1))
      hlS' (hys _ (List.getElem_mem h1y)) heq
    apply hi
    rcases Nat.even_or_odd' i with ⟨k, hk | hk⟩
    · have hk2 : 2 * (i / 2) = i := by omega
      rw [List.getElem?_eq_getElem hilt, List.getElem?_eq_getElem (by omega)]
      simp only [hk2] at e1
      rw [e1]
    · have hk2 : 2 * (i / 2) + 1 = i := by omega
      rw [List.getElem?_eq_getElem hilt, List.getElem?_eq_getElem (by omega)]
      simp only [hk2] at e2
      rw [e2]
  · rw [List.getElem?_eq_none (by omega), List.getElem?_eq_none (by omega)]
    simp only [pairDigest, ne_eq, Option.some.injEq]
    intro heq
    obtain ⟨e1, -⟩ := pair_inj_of_collisionFreeOn hlen hcf hlS hlS hlS' hlS' heq
    apply hi
    have hk2 : 2 * (i / 2) = i := by omega
    rw [List.getElem?_eq_getElem hilt, List.getElem?_eq_getElem (by omega)]
    simp only [hk2] at e1
    rw [e1]

theorem specRootAux_differ {σ : Type} {h : Hasher σ} {S : List Bytes} {L : Nat}
    (hlen : ∀ x ∈ S, x.length = L) (hcf : CollisionFreeOn h S) :
    ∀ (fuel : Nat) (xs ys : List Bytes), xs.length = ys.length → xs.length ≤ fuel →
      (∃ i : Nat, xs[i]? ≠ ys[i]?) →
      (∀ x ∈ levelDigests h fuel xs, x ∈ S) → (∀ y ∈ levelDigests h fuel ys, y ∈ S) →
      specRootAux h fuel xs ≠ specRootAux h fuel ys := by
  intro fuel
  induction fuel with
  | zero =>
    intro xs ys hl hle hdiff _ _
    obtain ⟨i, hi⟩ := hdiff
    have hx : xs = [] := List.length_eq_zero.mp (by omega)
    have hy : ys = [] := List.length_eq_zero.mp (by omega)
    subst hx hy
    exact absurd rfl hi
  | succ f ih =>
    intro xs ys hl hle hdiff hxs hys
    obtain ⟨i, hi⟩ := hdiff
    match xs, ys, hl, hle, hi, hxs, hys with
    | [], ys, hl, _, hi, _, _ =>
      have hy : ys = [] := List.length_eq_zero.mp (by simpa using hl.symm)
      subst hy
      exact absurd rfl hi
    | [x], [], hl, _, _, _, _ => simp at hl
    | [x], _ :: _ :: _, hl, _, _, _, _ => simp at hl
    | [x], [y], _, _, hi, _, _ =>
      cases i with
      | zero => simpa [specRootAux] using hi
      | succ n => exact absurd (by simp) hi
    | _ :: _ :: _, [], hl, _, _, _, _ => simp at hl
    | _ :: _ :: _, [_], hl, _, _, _, _ => simp at hl
    | l :: r :: rest, l' :: r' :: rest', hl, hle, hi, hxs, hys =>
      simp only [specRootAux]
      have h2 : 1 < (l :: r :: rest).length := by simp
      have h2' : 1 < (l' :: r' :: rest').length := by simp
      simp only [levelDigests, h2, h2', ↓reduceIte, List.mem_append] at hxs hys
      refine ih _ _ ?_ ?_ ⟨i / 2, specStep_differ hlen hcf (fun x hx => hxs x (Or.inl hx))
        (fun y hy => hys y (Or.inl hy)) hl hi⟩ (fun x hx => hxs x (Or.inr hx))
        (fun y hy => hys y (Or.inr hy))
      · rw [specStep_length, specStep_length, hl]
      · rw [specStep_length]
        simp only [List.length_cons] at hle ⊢
        omega

theorem swapAt_length (xs : List Bytes) (i j : Nat) : (swapAt xs i j).length = xs.length := by
  unfold swapAt
  split <;> simp

theorem swapAt_differ {xs : List Bytes} {i j : Nat} {a b : Bytes} (hi : xs[i]? = some a)
    (hj : xs[j]? = some b) (hab : a ≠ b) : xs[i]? ≠ (swapAt xs i j)[i]? := by
  have hij : i ≠ j := by
    intro hc
    subst hc
    rw [hi] at hj
    exact hab (Option.some.inj hj)
  have hilt : i < xs.length := (List.getElem?_eq_some_iff.mp hi).1
  simp only [swapAt, hi, hj]
  rw [List.getElem?_set_ne (Ne.symm hij), List.getElem?_set_self hilt]
  simpa using hab

/-- C7 as stated fails: the digests `[1]` and `[1,1]` are distinct, yet either order is the same
concatenation, so the two-leaf roots under the collision-free identity hasher agree. -/
theorem swap_keeps_root_unequal_lengths :
    CollisionFree idHasher ∧ ([[1], [1, 1]] : List Bytes)[0]? = some [1] ∧
    ([[1], [1, 1]] : List Bytes)[1]? = some [1, 1] ∧ ([1] : Bytes) ≠ [1, 1] ∧
    rootOfHashes [[1], [1, 1]] idHasher = .ok [1, 1, 1] ∧
    rootOfHashes (swapAt [[1], [1, 1]] 0 1) idHasher = .ok [1, 1, 1] :=
  ⟨idHasher_collisionFree, by decide, by decide, by decide, by decide, by decide⟩

/-- C7, amended. When all node digests of the two trees have one length and the hash function is
collision-free on them (distinct concatenated inputs give distinct digests), exchanging two
positions of the list that hold distinct digests changes the root digest of `NewFromHashes`. -/
theorem swap_changes_root {σ : Type} (h : Hasher σ) (hashes : List Bytes) (i j : Nat)
    (a b : Bytes) (L : Nat) (hi : hashes[i]? = some a) (hj : hashes[j]? = some b) (hab : a ≠ b)
    (hlen : ∀ x ∈ treeDigests hashes h ++ treeDigests (swapAt hashes i j) h, x.length = L)
    (hcf : CollisionFreeOn h (treeDigests hashes h ++ treeDigests (swapAt hashes i j) h)) :
    ∃ r1 r2, rootOfHashes hashes h = .ok r1 ∧ rootOfHashes (swapAt hashes i j) h = .ok r2 ∧
      r1 ≠ r2 := by
  have hilt : i < hashes.length := (List.getElem?_eq_some_iff.mp hi).1
  have hne : hashes ≠ [] := by
    intro hc; rw [hc] at hilt; simp at hilt
  have hsl := swapAt_length hashes i j
  have hne' : swapAt hashes i j ≠ [] := by
    intro hc
    rw [hc] at hsl
    simp at hsl
    omega
  obtain ⟨r1, hrun1, hspec1⟩ := rootOfHashes_spec h hashes hne
  obtain ⟨r2, hrun2, hspec2⟩ := rootOfHashes_spec h (swapAt hashes i j) hne'
  refine ⟨r1, r2, hrun1, hrun2, fun hc => ?_⟩
  have hdiff := specRootAux_differ hlen hcf hashes.length hashes (swapAt hashes i j) hsl.symm
    (Nat.le_refl _) ⟨i, swapAt_differ hi hj hab⟩
    (fun x hx => List.mem_append_left _ (mem_treeDigests_of_level h hashes hne x hx))
    (fun y hy => List.mem_append_right _
      (mem_treeDigests_of_level h (swapAt hashes i j) hne' y (by rw [hsl]; exact hy)))
  apply hdiff
  have e1 : specRootAux h hashes.length hashes = some r1 := hspec1
  have e2 : specRootAux h hashes.length (swapAt hashes i j) = some r2 := by
    rw [← hsl]; exact hspec2
  rw [e1, e2, hc]

theorem treeDigests_example :
    treeDigests [[1], [2]] polyHasher ++ treeDigests (swapAt [[1], [2]] 0 1) polyHasher =
      [[1], [2], [9], [2], [1], [11]] := by
  decide

theorem collisionFreeOn_example :
    CollisionFreeOn polyHasher [[1], [2], [9], [2], [1], [11]] := by
  unfold CollisionFreeOn
  decide

theorem swap_changes_root_witness :
    ([[1], [2]] : List Bytes)[0]? = some [1] ∧ ([[1], [2]] : List Bytes)[1]? = some [2] ∧
    ([1] : Bytes) ≠ [2] ∧
    (∀ x ∈ treeDigests [[1], [2]] polyHasher ++ treeDigests (swapAt [[1], [2]] 0 1) polyHasher,
      x.length = 1) ∧
    CollisionFreeOn polyHasher
      (treeDigests [[1], [2]] polyHasher ++ treeDigests (swapAt [[1], [2]] 0 1) polyHasher) ∧
    ∃ r1 r2, rootOfHashes [[1], [2]] polyHasher = .ok r1 ∧
      rootOfHashes (swapAt [[1], [2]] 0 1) polyHasher = .ok r2 ∧ r1 ≠ r2 :=
  ⟨by decide, by decide, by decide,
    by rw [treeDigests_example]; decide,
    by rw [treeDigests_example]; exact collisionFreeOn_example,
    swap_changes_root polyHasher [[1], [2]] 0 1 [1] [2] 1 (by decide) (by decide) (by decide)
      (by rw [treeDigests_example]; decide)
      (by rw [treeDigests_example]; exact collisionFreeOn_example)⟩

/-! ## VerifyProof as a fold, and the two scenarios -/

theorem verifyLoop_eq_specFold {σ : Type} (h : Hasher σ) :
    ∀ (proofs : List Bytes) (idxs : List Int) (value : Bytes), proofs.length = idxs.length →
      verifyLoop h proofs idxs value = .ok (specFold h value (proofs.zip idxs))
  | [], [], value, _ => rfl
  | [], _ :: _, value, hlen => by simp at hlen
  | _ :: _, [], value, hlen => by simp at hlen
  | p :: proofs, i :: idxs, value, hlen => by
    have hl : proofs.length = idxs.length := by simpa using hlen
    by_cases hi : i = 0
    · simp only [verifyLoop, hi, ↓reduceIte, List.zip_cons_cons, specFold, List.foldl_cons]
      exact verifyLoop_eq_specFold h proofs idxs _ hl
    · simp only [verifyLoop, hi, ↓reduceIte, List.zip_cons_cons, specFold, List.foldl_cons]
      exact verifyLoop_eq_specFold h proofs idxs _ hl

/-- C11. `VerifyProof` is the left-to-right fold: when the position list is as long as the proof
path, `VerifyProof` returns true exactly when the root is byte-equal to the fold of the pairs
`(sibling, position)` from the claimed digest. -/
theorem VerifyProof_eq_fold {σ : Type} (h : Hasher σ) (root value : Bytes)
    (proofs : List Bytes) (idxs : List Int) (hlen : proofs.length = idxs.length) :
    ∃ b, VerifyProof root value proofs idxs h = .ok b ∧
      (b = true ↔ root = specFold h value (proofs.zip idxs)) := by
  refine ⟨decide (root = specFold h value (proofs.zip idxs)), ?_, by simp⟩
  exact VerifyProof_of_loop h root value proofs idxs _ (verifyLoop_eq_specFold h proofs idxs value hlen)

theorem VerifyProof_eq_fold_witness :
    ([[2], [3]] : List Bytes).length = ([1, 0] : List Int).length ∧
    ∃ b, VerifyProof [22] [1] [[2], [3]] [1, 0] polyHasher = .ok b ∧
      (b = true ↔ [22] = specFold polyHasher [1] (([[2], [3]] : List Bytes).zip [1, 0])) :=
  ⟨by decide, VerifyProof_eq_fold polyHasher [22] [1] [[2], [3]] [1, 0] (by decide)⟩

/-- C13. `Verify` returns false, and leaves the heap as it is, on every tree whose leaf list is
empty or whose root is nil, whatever the other field holds. -/
theorem Verify_false_of_empty {σ : Type} (t : Tree σ) (hp : Heap)
    (hdeg : t.Leaves = [] ∨ t.Root = none) : Verify t hp = .ok (false, hp) := by
  have hguard : t.Leaves.length = 0 ∨ t.Root = none := by
    rcases hdeg with h1 | h1
    · exact Or.inl (by rw [h1]; rfl)
    · exact Or.inr h1
  unfold Verify
  rw [if_pos hguard]

theorem Verify_false_of_empty_witness :
    (({ Root := some 0, Leaves := [], h := polyHasher } : Tree Byte).Leaves = [] ∨
      ({ Root := some 0, Leaves := [], h := polyHasher } : Tree Byte).Root = none) ∧
    Verify ({ Root := some 0, Leaves := [], h := polyHasher } : Tree Byte) [leafCell [1]] =
      .ok (false, [leafCell [1]]) :=
  ⟨Or.inl rfl, Verify_false_of_empty _ _ (Or.inl rfl)⟩

/-- C17. Single-leaf scenario: for every hasher and digest `x`, the tree `NewFromHashes([x])` has
root digest `x`, `GetProof(x)` returns an empty path and no positions with a nil error, and
`VerifyProof(x, x, [], [])` is true. -/
theorem single_leaf_scenario {σ : Type} (h : Hasher σ) (x : Bytes) :
    ∃ hp t, NewFromHashes [x] h = .ok (hp, t) ∧ rootDigest t hp = .ok x ∧
      GetProof t hp x = .ok ([], [], none) ∧ VerifyProof x x [] [] h = .ok true := by
  refine ⟨[leafCell x], { Root := some 0, Leaves := [0], h := h }, ?_, ?_, ?_, ?_⟩
  · simp [NewFromHashes, addLeaves, buildRoot, buildLoop, bind, Except.bind, leafCell]
  · simp [rootDigest, derefPtr, deref, bind, Except.bind, leafCell]
  · simp [GetProof, findLeaf, deref, climb, bind, Except.bind, leafCell]
  · simp [VerifyProof, verifyLoop, bind, Except.bind]

/-- The heap of the four-leaf tree. -/
theorem four_leaf_heap {σ : Type} (h : Hasher σ) (a b c d : Bytes) :
    NewFromHashes [a, b, c, d] h = .ok
      ([{ Parent := some 4, Left := none, Right := none, Hash := a },
        { Parent := some 4, Left := none, Right := none, Hash := b },
        { Parent := some 5, Left := none, Right := none, Hash := c },
        { Parent := some 5, Left := none, Right := none, Hash := d },
        { Parent := some 6, Left := some 0, Right := some 1, Hash := h.Hash [a, b] },
        { Parent := some 6, Left := some 2, Right := some 3, Hash := h.Hash [c, d] },
        { Parent := none, Left := some 4, Right := some 5,
          Hash := h.Hash [h.Hash [a, b], h.Hash [c, d]] }],
       { Root := some 6, Leaves := [0, 1, 2, 3], h := h }) := by
  simp [NewFromHashes, addLeaves, buildRoot, buildLoop, dupLast, pairLoop, deref, setParent,
    bind, Except.bind]

/-- C16. Four-leaf scenario: for every hasher and all digests `a, b, c, d`, the tree
`NewFromHashes([a, b, c, d])` has root digest `R = hash(hash(a, b), hash(c, d))`, `GetProof(a)`
returns the path `[b, hash(c, d)]` with positions `[1, 1]` and a nil error, and
`VerifyProof(R, a, path, positions)` is true. -/
theorem four_leaf_scenario {σ : Type} (h : Hasher σ) (a b c d : Bytes) :
    ∃ hp t, NewFromHashes [a, b, c, d] h = .ok (hp, t) ∧
      rootDigest t hp = .ok (h.Hash [h.Hash [a, b], h.Hash [c, d]]) ∧
      GetProof t hp a = .ok ([b, h.Hash [c, d]], [1, 1], none) ∧
      VerifyProof (h.Hash [h.Hash [a, b], h.Hash [c, d]]) a [b, h.Hash [c, d]] [1, 1] h =
        .ok true := by
  refine ⟨_, _, four_leaf_heap h a b c d, ?_, ?_, ?_⟩
  · simp [rootDigest, derefPtr, deref, bind, Except.bind]
  · simp [GetProof, findLeaf, deref, derefPtr, climb, bind, Except.bind]
  · simp [VerifyProof, verifyLoop, bind, Except.bind]

/-! ## Construction from hashable inputs -/

theorem hashLeaves_ok {σ : Type} (h : Hasher σ) :
    ∀ (inputs : List Hashable) (ds : List Bytes) (hp : Heap) (leaves : List Nat) (reads : Nat),
      List.Forall₂ (fun x d => h.Hashable x = .ok d) inputs ds →
      hashLeaves h inputs hp leaves reads = (.ok (addLeaves ds hp leaves), reads + inputs.length)
  | [], _, hp, leaves, reads, hall => by
    cases hall
    simp [hashLeaves, addLeaves]
  | x :: rest, _, hp, leaves, reads, hall => by
    cases hall with
    | cons hx hrest =>
      simp only [hashLeaves, hx, addLeaves, List.length_cons]
      rw [hashLeaves_ok h rest _ _ _ _ hrest]
      congr 1
      omega

theorem hashLeaves_error {σ : Type} (h : Hasher σ) :
    ∀ (pre : List Hashable) (bad : Hashable) (post : List Hashable) (e : String) (hp : Heap)
      (leaves : List Nat) (reads : Nat),
      (∀ x ∈ pre, ∃ d, h.Hashable x = .ok d) → h.Hashable bad = .error e →
      hashLeaves h (pre ++ bad :: post) hp leaves reads = (.error e, reads + pre.length + 1)
  | [], bad, post, e, hp, leaves, reads, _, hbad => by
    simp [hashLeaves, hbad]
  | x :: pre, bad, post, e, hp, leaves, reads, hpre, hbad => by
    obtain ⟨d, hd⟩ := hpre x (by simp)
    have ih := hashLeaves_error h pre bad post e
      (hp ++ [{ Parent := none, Left := none, Right := none, Hash := d }])
      (leaves ++ [hp.length]) (reads + 1) (fun y hy => hpre y (by simp [hy])) hbad
    rw [List.cons_append, hashLeaves]
    simp only [hd, List.length_cons]
    rw [ih]
    congr 1
    omega

/-- A list with a failing input splits at its first failing input. -/
theorem first_failure {σ : Type} (h : Hasher σ) :
    ∀ (inputs : List Hashable), (∃ x ∈ inputs, ∃ e, h.Hashable x = .error e) →
      ∃ pre bad post e, inputs = pre ++ bad :: post ∧ (∀ x ∈ pre, ∃ d, h.Hashable x = .ok d) ∧
        h.Hashable bad = .error e
  | [], hfail => by
    obtain ⟨x, hx, -⟩ := hfail
    simp at hx
  | y :: rest, hfail => by
    cases hy : h.Hashable y with
    | error e => exact ⟨[], y, rest, e, rfl, by simp, hy⟩
    | ok d =>
      have hrest : ∃ x ∈ rest, ∃ e, h.Hashable x = .error e := by
        obtain ⟨x, hx, e, he⟩ := hfail
        rcases List.mem_cons.mp hx with rfl | hx
        · rw [hy] at he
          cases he
        · exact ⟨x, hx, e, he⟩
      obtain ⟨pre, bad, post, e, heq, hpre, hbad⟩ := first_failure h rest hrest
      refine ⟨y :: pre, bad, post, e, by rw [heq]; rfl, ?_, hbad⟩
      intro x hx
      rcases List.mem_cons.mp hx with rfl | hx
      · exact ⟨d, hy⟩
      · exact hpre x hx

/-- C14. The two constructors agree: when the streamed digests of a non-empty list of inputs all
succeed, with results `ds`, `NewFromHashables` returns a nil error after reading every input, and
its tree is the tree that `NewFromHashes` builds on `ds`: the leaf digests are `ds` in order and
the root digest is that of `NewFromHashes(ds)`. -/
theorem NewFromHashables_agrees {σ : Type} (h : Hasher σ) (inputs : List Hashable)
    (ds : List Bytes) (hne : inputs ≠ [])
    (hall : List.Forall₂ (fun x d => h.Hashable x = .ok d) inputs ds) :
    ∃ hp t, NewFromHashables inputs h = .ok (.ok (hp, t), inputs.length) ∧
      NewFromHashes ds h = .ok (hp, t) ∧ t.Leaves.map (hashAt hp) = ds ∧
      rootDigest t hp = rootOfHashes ds h := by
  have hlen : inputs.length = ds.length := hall.length_eq
  have hdne : ds ≠ [] := by
    intro hc
    rw [hc] at hlen
    exact hne (List.length_eq_zero.mp hlen)
  obtain ⟨hp, r, hnew, -, hmap, -⟩ := NewFromHashes_spec h ds hdne
  refine ⟨hp, _, ?_, hnew, hmap, ?_⟩
  · have hrun := hnew
    simp only [NewFromHashes, bind, Except.bind] at hrun
    simp only [NewFromHashables, hashLeaves_ok h inputs ds [] [] 0 hall, Nat.zero_add, bind,
      Except.bind]
    cases hb : buildRoot ({ Root := none, Leaves := (addLeaves ds [] []).2, h := h } : Tree σ)
        (addLeaves ds [] []).1 with
    | error e => rw [hb] at hrun; cases hrun
    | ok res =>
      rw [hb] at hrun
      simp only [Except.ok.injEq, Prod.mk.injEq] at hrun ⊢
      exact ⟨⟨hrun.1, hrun.2⟩, trivial⟩
  · simp only [rootOfHashes, hnew, bind, Except.bind]

theorem NewFromHashables_agrees_witness :
    ([⟨[[1]], none⟩, ⟨[[2], [3]], none⟩] : List Hashable) ≠ [] ∧
    List.Forall₂ (fun x d => polyHasher.Hashable x = .ok d)
      [⟨[[1]], none⟩, ⟨[[2], [3]], none⟩] [[2], [13]] ∧
    ∃ hp t, NewFromHashables [⟨[[1]], none⟩, ⟨[[2], [3]], none⟩] polyHasher =
        .ok (.ok (hp, t), ([⟨[[1]], none⟩, ⟨[[2], [3]], none⟩] : List Hashable).length) ∧
      NewFromHashes [[2], [13]] polyHasher = .ok (hp, t) ∧
      t.Leaves.map (hashAt hp) = [[2], [13]] ∧
      rootDigest t hp = rootOfHashes [[2], [13]] polyHasher :=
  ⟨by simp, List.Forall₂.cons (by decide) (List.Forall₂.cons (by decide) List.Forall₂.nil),
    NewFromHashables_agrees polyHasher [⟨[[1]], none⟩, ⟨[[2], [3]], none⟩] [[2], [13]]
      (by simp) (List.Forall₂.cons (by decide) (List.Forall₂.cons (by decide) List.Forall₂.nil))⟩

/-- C15. Construction from hashable inputs aborts on the first read failure: when the streamed
digest of some input fails, `NewFromHashables` returns no tree and the error of the first failing
input in list order, having read the inputs up to that one and none after it. -/
theorem NewFromHashables_first_error {σ : Type} (h : Hasher σ) (inputs : List Hashable)
    (hfail : ∃ x ∈ inputs, ∃ e, h.Hashable x = .error e) :
    ∃ pre bad post e, inputs = pre ++ bad :: post ∧
      (∀ x ∈ pre, ∃ d, h.Hashable x = .ok d) ∧ h.Hashable bad = .error e ∧
      NewFromHashables inputs h = .ok (.error e, pre.length + 1) := by
  obtain ⟨pre, bad, post, e, heq, hpre, hbad⟩ := first_failure h inputs hfail
  refine ⟨pre, bad, post, e, heq, hpre, hbad, ?_⟩
  rw [heq]
  simp only [NewFromHashables, hashLeaves_error h pre bad post e [] [] 0 hpre hbad, Nat.zero_add]

theorem NewFromHashables_first_error_witness :
    (∃ x ∈ ([⟨[[1]], none⟩, ⟨[[2]], some "read failed"⟩, ⟨[[3]], some "late"⟩] : List Hashable),
      ∃ e, polyHasher.Hashable x = .error e) ∧
    ∃ pre bad post e,
      ([⟨[[1]], none⟩, ⟨[[2]], some "read failed"⟩, ⟨[[3]], some "late"⟩] : List Hashable) =
        pre ++ bad :: post ∧
      (∀ x ∈ pre, ∃ d, polyHasher.Hashable x = .ok d) ∧ polyHasher.Hashable bad = .error e ∧
      NewFromHashables [⟨[[1]], none⟩, ⟨[[2]], some "read failed"⟩, ⟨[[3]], some "late"⟩]
        polyHasher = .ok (.error e, pre.length + 1) :=
  ⟨⟨⟨[[2]], some "read failed"⟩, by simp, "read failed", rfl⟩,
    NewFromHashables_first_error polyHasher _
      ⟨⟨[[2]], some "read failed"⟩, by simp, "read failed", rfl⟩⟩

/-! ## The digest of several parts -/

theorem foldl_write_append {σ : Type} {h : Hasher σ} (hs : Streaming h) :
    ∀ (parts : List Bytes) (s : σ) (p : Bytes),
      (p :: parts).foldl h.Imp.Write s = h.Imp.Write s ((p :: parts).flatten)
  | [], s, p => by simp
  | q :: parts, s, p => by
    have ih := foldl_write_append hs parts (h.Imp.Write s p) q
    simp only [List.foldl_cons] at ih ⊢
    rw [ih, hs]
    simp

theorem hash_eq_hash_flatten {σ : Type} {h : Hasher σ} (hs : Streaming h) (parts : List Bytes)
    (hne : parts ≠ []) : h.Hash parts = h.Hash [parts.flatten] := by
  match parts, hne with
  | p :: rest, _ =>
    unfold Hasher.Hash
    rw [foldl_write_append hs rest _ p]
    simp

theorem polyHasher_streaming : Streaming polyHasher := by
  intro s a b
  simp [polyHasher, polyImp, List.foldl_append]

/-- C20. The multi-part digest depends only on the concatenation of its parts: for every hasher
whose writes add to the running hash, `Hash(a, b) = Hash(c, d)` whenever `a ++ b = c ++ d`, and
`Hash(p1, ..., pk) = Hash(p1 ++ ... ++ pk)`; hence the sibling pairs `([1], [1,1])` and
`([1,1], [1])`, of digests of unequal lengths, yield the same parent digest. -/
theorem hash_depends_on_concatenation {σ : Type} (h : Hasher σ) (hs : Streaming h) :
    (∀ a b c d : Bytes, a ++ b = c ++ d → h.Hash [a, b] = h.Hash [c, d]) ∧
    (∀ parts : List Bytes, parts ≠ [] → h.Hash parts = h.Hash [parts.flatten]) ∧
    ∃ root, rootOfHashes [[1], [1, 1]] h = .ok root ∧
      rootOfHashes [[1, 1], [1]] h = .ok root := by
  have hpair : ∀ a b c d : Bytes, a ++ b = c ++ d → h.Hash [a, b] = h.Hash [c, d] := by
    intro a b c d heq
    rw [hash_eq_hash_flatten hs [a, b] (by simp), hash_eq_hash_flatten hs [c, d] (by simp)]
    simp [heq]
  refine ⟨hpair, fun parts hne => hash_eq_hash_flatten hs parts hne, ?_⟩
  obtain ⟨r1, hrun1, hspec1⟩ := rootOfHashes_spec h [[1], [1, 1]] (by simp)
  obtain ⟨r2, hrun2, hspec2⟩ := rootOfHashes_spec h [[1, 1], [1]] (by simp)
  have e1 : specRoot h [[1], [1, 1]] = some (h.Hash [[1], [1, 1]]) := by
    simp [specRoot, specRootAux, specStep, padOdd, hashPairs]
  have e2 : specRoot h [[1, 1], [1]] = some (h.Hash [[1, 1], [1]]) := by
    simp [specRoot, specRootAux, specStep, padOdd, hashPairs]
  rw [e1] at hspec1
  rw [e2, hpair [1, 1] [1] [1] [1, 1] (by decide)] at hspec2
  cases hspec1
  cases hspec2
  exact ⟨_, hrun1, hrun2⟩

theorem hash_depends_on_concatenation_witness :
    Streaming polyHasher ∧
    (∀ a b c d : Bytes, a ++ b = c ++ d → polyHasher.Hash [a, b] = polyHasher.Hash [c, d]) ∧
    (∀ parts : List Bytes, parts ≠ [] → polyHasher.Hash parts = polyHasher.Hash [parts.flatten]) ∧
    ∃ root, rootOfHashes [[1], [1, 1]] polyHasher = .ok root ∧
      rootOfHashes [[1, 1], [1]] polyHasher = .ok root :=
  ⟨polyHasher_streaming, hash_depends_on_concatenation polyHasher polyHasher_streaming⟩

/-! ## Verify on an intact tree -/

/-- On a heap where the leaves are linked to a root and the stored root holds the bottom-up root
of the leaf digests, `Verify` returns true and leaves a heap of the same kind, with the same
digests at all addresses of the old heap. -/
theorem Verify_true_step {σ : Type} (t : Tree σ) (hp : Heap) (r r0 : Nat)
    (hne : t.Leaves ≠ []) (hroot : t.Root = some r) (hrlt : r < hp.length)
    (hpath : ∀ a ∈ t.Leaves, Path hp a r0 (Nat.clog 2 t.Leaves.length))
    (hspec : some (hashAt hp r) = specRoot t.h (t.Leaves.map (hashAt hp))) :
    ∃ hp' r1, Verify t hp = .ok (true, hp') ∧ r < hp'.length ∧ Ext hp hp' t.Leaves ∧
      (∀ a ∈ t.Leaves, Path hp' a r1 (Nat.clog 2 t.Leaves.length)) ∧
      some (hashAt hp' r) = specRoot t.h (t.Leaves.map (hashAt hp')) := by
  obtain ⟨hp', cr, hbuild, hcrlt, e, -, hroot', hpath'⟩ := buildRoot_spec t hp r0 hne hpath
  have hle := e.length_le
  have hval : ∀ a ∈ t.Leaves, a < hp.length := fun a ha => by
    have := (hpath a ha).bound
    omega
  have hleaves : t.Leaves.map (hashAt hp') = t.Leaves.map (hashAt hp) :=
    List.map_congr_left (fun a ha => e.hashAt (hval a ha))
  obtain ⟨root, hderef, hrh⟩ := deref_of_lt (show r < hp'.length by omega)
  obtain ⟨crn, hderef2, hch⟩ := deref_of_lt hcrlt
  have hrr : hashAt hp' r = hashAt hp r := e.hashAt hrlt
  have heq : root.Hash = crn.Hash := by
    rw [hrh, hch, hrr]
    have := hspec.trans hroot'.symm
    exact Option.some.inj this
  have hguard : ¬ (t.Leaves.length = 0 ∨ t.Root = none) := by
    rintro (hc | hc)
    · exact hne (List.length_eq_zero.mp hc)
    · rw [hroot] at hc
      cases hc
  refine ⟨hp', cr, ?_, by omega, e, hpath', by rw [hrr, hleaves]; exact hspec⟩
  unfold Verify
  rw [if_neg hguard]
  simp only [hbuild, hroot, derefPtr, hderef, hderef2, bind, Except.bind, heq, decide_True]

theorem verifyRepeat_true {σ : Type} (t : Tree σ) (r : Nat) (hne : t.Leaves ≠ [])
    (hroot : t.Root = some r) :
    ∀ (n : Nat) (hp : Heap) (r0 : Nat), r < hp.length →
      (∀ a ∈ t.Leaves, Path hp a r0 (Nat.clog 2 t.Leaves.length)) →
      some (hashAt hp r) = specRoot t.h (t.Leaves.map (hashAt hp)) →
      verifyRepeat t n hp = .ok (List.replicate n true)
  | 0, _, _, _, _, _ => rfl
  | n + 1, hp, r0, hrlt, hpath, hspec => by
    obtain ⟨hp', r1, hrun, hrlt', -, hpath', hspec'⟩ :=
      Verify_true_step t hp r r0 hne hroot hrlt hpath hspec
    have ih := verifyRepeat_true t r hne hroot n hp' r1 hrlt' hpath' hspec'
    simp only [verifyRepeat, hrun, ih, bind, Except.bind, List.replicate_succ]

/-- C19. A freshly built tree passes its own integrity check: for every hasher and every
non-empty list of digests, `Verify` on the tree `NewFromHashes` returns is true, and so is every
further call of `Verify`, as long as no leaf is altered. -/
theorem fresh_tree_verifies {σ : Type} (h : Hasher σ) (hashes : List Bytes) (n : Nat)
    (hne : hashes ≠ []) :
    ∃ hp t, NewFromHashes hashes h = .ok (hp, t) ∧
      verifyRepeat t n hp = .ok (List.replicate n true) := by
  obtain ⟨hp, r, hnew, hrlt, hmap, hroot, -, hpath, -⟩ := NewFromHashes_spec h hashes hne
  refine ⟨hp, _, hnew, ?_⟩
  have hrne : List.range hashes.length ≠ [] := by
    intro hc
    have := congrArg List.length hc
    simp at this
    exact hne this
  exact verifyRepeat_true
    ({ Root := some r, Leaves := List.range hashes.length, h := h } : Tree σ) r hrne rfl n hp r
    hrlt (by simpa using hpath) (by simpa [hmap] using hroot)

theorem fresh_tree_verifies_witness :
    ([[1], [2], [3]] : List Bytes) ≠ [] ∧
    ∃ hp t, NewFromHashes [[1], [2], [3]] polyHasher = .ok (hp, t) ∧
      verifyRepeat t 3 hp = .ok (List.replicate 3 true) :=
  ⟨by simp, fresh_tree_verifies polyHasher [[1], [2], [3]] 3 (by simp)⟩

/-! ## The cells of a level, index by index -/

/-- One round of the inner loop of `buildRoot`. -/
theorem pairLoop_step {σ : Type} (h : Hasher σ) (l r : Nat) (rest : List Nat) (hp : Heap)
    (parents : List Nat) (hl : l < hp.length) (hr : r < hp.length) :
    ∃ hp3 c, pairLoop h (l :: r :: rest) hp parents =
        pairLoop h rest hp3 (parents ++ [hp.length]) ∧
      hp3.length = hp.length + 1 ∧ hp3[hp.length]? = some c ∧ c.Left = some l ∧
      c.Right = some r := by
  obtain ⟨nl, hnl⟩ := get_of_lt hl
  obtain ⟨nr, hnr⟩ := get_of_lt hr
  let c : Node := { Parent := none, Left := some l, Right := some r,
                    Hash := h.Hash [nl.Hash, nr.Hash] }
  have hc1 : (hp ++ [c])[hp.length]? = some c := by simp
  have hl1 : (hp ++ [c])[l]? = some nl := by
    rw [List.getElem?_append_left hl]; exact hnl
  obtain ⟨hp2, hs2, hlen2, -, hoth2, -⟩ := setParent_spec hp.length hl1
  have hr2lt : r < hp2.length := by rw [hlen2]; simp; omega
  obtain ⟨nr2, hnr2⟩ := get_of_lt hr2lt
  obtain ⟨hp3, hs3, hlen3, -, hoth3, -⟩ := setParent_spec hp.length hnr2
  refine ⟨hp3, c, ?_, by rw [hlen3, hlen2]; simp, ?_, rfl, rfl⟩
  · simp only [pairLoop, deref_eq_ok hnl, deref_eq_ok hnr, bind, Except.bind]
    rw [hs2]
    simp only [hs3]
  · rw [hoth3 _ (by omega), hoth2 _ (by omega)]; exact hc1

/-- The cell that the inner loop allocates for the `j`-th pair has the two nodes of the pair as
its children. -/
theorem pairLoop_cells {σ : Type} (h : Hasher σ) :
    ∀ (k : Nat) (nodes : List Nat) (hp : Heap) (parents : List Nat),
      nodes.length = 2 * k → (∀ a ∈ nodes, a < hp.length) →
      ∀ (hp' : Heap) (ps : List Nat), pairLoop h nodes hp parents = .ok (hp', ps) →
      ∀ j, j < k → ∃ nd, hp'[hp.length + j]? = some nd ∧ nd.Left = nodes[2 * j]? ∧
        nd.Right = nodes[2 * j + 1]? := by
  intro k
  induction k with
  | zero => intro _ _ _ _ _ _ _ _ j hj; omega
  | succ k ih =>
    intro nodes hp parents hlen hval hp' ps hrun j hj
    match nodes, hlen, hval, hrun with
    | [], hlen, _, _ => simp at hlen
    | [_], hlen, _, _ => simp at hlen; omega
    | l :: r :: rest, hlen, hval, hrun =>
      have hl : l < hp.length := hval l (by simp)
      have hr : r < hp.length := hval r (by simp)
      have hrest : ∀ a ∈ rest, a < hp.length := fun a ha => hval a (by simp [ha])
      obtain ⟨hp3, c, hstep, hlen3, hc3, hcl, hcr⟩ := pairLoop_step h l r rest hp parents hl hr
      rw [hstep] at hrun
      have hrest3 : ∀ a ∈ rest, a < hp3.length := fun a ha => by
        have := hrest a ha; omega
      have hlenr : rest.length = 2 * k := by simp at hlen; omega
      cases j with
      | zero =>
        obtain ⟨hp'', ps'', hrun'', -, -, e', -⟩ :=
          pairLoop_spec h k rest hp3 (parents ++ [hp.length]) hlenr hrest3
        rw [hrun] at hrun''
        cases hrun''
        obtain ⟨c', hc', -, hcl', hcr', -⟩ := e' _ c hc3
        exact ⟨c', by simpa using hc', by simp [hcl', hcl], by simp [hcr', hcr]⟩
      | succ j =>
        obtain ⟨nd, hnd, hndl, hndr⟩ :=
          ih rest hp3 (parents ++ [hp.length]) hlenr hrest3 hp' ps hrun j (by omega)
        have h1 : hp.length + (j + 1) = hp3.length + j := by omega
        have h2 : 2 * (j + 1) = (2 * j + 1) + 1 := by omega
        have h3 : 2 * (j + 1) + 1 = (2 * j + 1 + 1) + 1 := by omega
        refine ⟨nd, by rw [h1]; exact hnd, ?_, ?_⟩
        · rw [hndl, h2]; simp
        · rw [hndr, h3]; simp

/-- In a level where equal nodes lie in one pair, the node at index `m` gets the cell of pair
`m / 2` as its parent, and that cell has the two nodes of the pair as its children. -/
theorem pairLoop_index {σ : Type} (h : Hasher σ) (k : Nat) (nodes : List Nat) (hp : Heap)
    (hlen : nodes.length = 2 * k) (hval : ∀ a ∈ nodes, a < hp.length)
    (hcons : ∀ (m m' a : Nat), nodes[m]? = some a → nodes[m']? = some a → m / 2 = m' / 2)
    (hp1 : Heap) (ps : List Nat) (hrun : pairLoop h nodes hp [] = .ok (hp1, ps))
    (m a : Nat) (hm : nodes[m]? = some a) :
    ∃ nd ndp l rr, hp1[a]? = some nd ∧ nd.Parent = some (hp.length + m / 2) ∧
      hp1[hp.length + m / 2]? = some ndp ∧ ndp.Parent = none ∧ ndp.Left = some l ∧
      ndp.Right = some rr ∧ nodes[2 * (m / 2)]? = some l ∧ nodes[2 * (m / 2) + 1]? = some rr := by
  obtain ⟨hp'', ps'', hrun'', hps, -, -, -, hnew, hpar⟩ := pairLoop_spec h k nodes hp [] hlen hval
  rw [hrun] at hrun''
  simp only [List.nil_append, Except.ok.injEq, Prod.mk.injEq] at hrun''
  obtain ⟨rfl, rfl⟩ := hrun''
  obtain ⟨p, hpm, nd, ndp, hnd, hndpar, hndp, hchild⟩ := hpar a (List.getElem?_mem hm)
  have hpr := hpm
  rw [hps] at hpr
  obtain ⟨hple, hplt⟩ := mem_range'_one.mp hpr
  obtain ⟨j, rfl⟩ : ∃ j, p = hp.length + j := ⟨p - hp.length, by omega⟩
  have hj : j < k := by omega
  obtain ⟨nd2, hnd2, hl2, hr2⟩ := pairLoop_cells h k nodes hp [] hlen hval hp1 ps hrun j hj
  rw [hndp] at hnd2
  cases hnd2
  have hjm : m / 2 = j := by
    rcases hchild with hc | hc
    · have := hcons m (2 * j) a hm (by rw [← hl2, hc])
      omega
    · have := hcons m (2 * j + 1) a hm (by rw [← hr2, hc])
      omega
  obtain ⟨ndp2, l, rr, hndp2, hpnone, hl, hrr, -⟩ := hnew _ hpm
  rw [hndp] at hndp2
  cases hndp2
  rw [hjm]
  exact ⟨nd, ndp, l, rr, hnd, hndpar, hndp, hpnone, hl, hrr, by rw [← hl2, hl],
    by rw [← hr2, hrr]⟩


theorem dupLast_getElem?_of_lt {nodes : List Nat} {m : Nat} (hm : m < nodes.length) :
    (dupLast nodes)[m]? = nodes[m]? := by
  unfold dupLast
  split
  · cases nodes.getLast? with
    | none => rfl
    | some x => simp only []; rw [List.getElem?_append_left hm]
  · rfl

/-- In a level of distinct nodes with its last node duplicated, equal nodes lie in one pair. -/
theorem dupLast_consistent {nodes : List Nat} (hnd : nodes.Nodup) (m m' a : Nat)
    (hm : (dupLast nodes)[m]? = some a) (hm' : (dupLast nodes)[m']? = some a) :
    m / 2 = m' / 2 := by
  by_cases hodd : nodes.length % 2 ≠ 0
  · cases hl : nodes.getLast? with
    | none =>
      rw [List.getLast?_eq_none_iff] at hl
      subst hl
      simp [dupLast] at hm
    | some x =>
      have hx : nodes[nodes.length - 1]? = some x := by
        rw [← List.getLast?_eq_getElem?]; exact hl
      have hdl : dupLast nodes = nodes ++ [x] := by simp [dupLast, hodd, hl]
      rw [hdl] at hm hm'
      -- the index in `nodes` of the entry at an index of the padded level
      have canon : ∀ i, (nodes ++ [x])[i]? = some a →
          ∃ c, c < nodes.length ∧ nodes[c]? = some a ∧ c / 2 = i / 2 := by
        intro i hi
        by_cases hlt : i < nodes.length
        · rw [List.getElem?_append_left hlt] at hi
          exact ⟨i, hlt, hi, rfl⟩
        · have hile : i < (nodes ++ [x]).length := (List.getElem?_eq_some_iff.mp hi).1
          simp only [List.length_append, List.length_singleton] at hile
          have hin : i = nodes.length := by omega
          subst hin
          rw [List.getElem?_append_right (Nat.le_refl _)] at hi
          simp only [Nat.sub_self, List.getElem?_cons_zero, Option.some.injEq] at hi
          subst hi
          exact ⟨nodes.length - 1, by omega, hx, by omega⟩
      obtain ⟨c, hc, hca, hc2⟩ := canon m hm
      obtain ⟨c', _, hca', hc2'⟩ := canon m' hm'
      have := List.getElem?_inj hc hnd (hca.trans hca'.symm)
      omega
  · have hdl : dupLast nodes = nodes := by simp [dupLast, hodd]
    rw [hdl] at hm hm'
    have hlt := (List.getElem?_eq_some_iff.mp hm).1
    have := List.getElem?_inj hlt hnd (hm.trans hm'.symm)
    omega

theorem step_eq_stepByDigest (m : Nat) (cur left right : Bytes)
    (heven : m % 2 = 0 → cur = left) (hodd : m % 2 = 1 → cur = right) :
    (if cur = left then (right, (1 : Int)) else (left, 0)) = stepByDigest m cur left right := by
  unfold stepByDigest
  rcases Nat.mod_two_eq_zero_or_one m with h0 | h1
  · simp [h0, heven h0]
  · have hr := hodd h1
    by_cases hc : cur = left
    · simp [h1, hc, ← hr]
    · simp [h1, hc]

/-- After the loop of `buildRoot` on a level of distinct nodes, the walk of `GetProof` from the
node at index `m` of the level appends the proof that the digests of the level determine. -/
theorem buildLoop_walk {σ : Type} (h : Hasher σ) :
    ∀ (fuel : Nat) (nodes : List Nat) (hp : Heap),
      nodes ≠ [] → nodes.length ≤ fuel → (∀ a ∈ nodes, a < hp.length) → nodes.Nodup →
      (nodes.length = 1 → ∀ a ∈ nodes, ∃ nd, hp[a]? = some nd ∧ nd.Parent = none) →
      ∀ (hp' : Heap) (r : Nat), buildLoop h fuel nodes hp = .ok (hp', [r]) →
      ∀ (m a : Nat) (nd : Node), nodes[m]? = some a → hp'[a]? = some nd →
      ∀ (f' : Nat), fuel ≤ f' → ∀ (path : List Bytes) (idxs : List Int),
        climb hp' f' a nd.Parent path idxs =
          .ok (path ++ (proofByDigest h fuel (nodes.map (hashAt hp)) m).map Prod.fst,
               idxs ++ (proofByDigest h fuel (nodes.map (hashAt hp)) m).map Prod.snd) := by
  intro fuel
  induction fuel with
  | zero =>
    intro nodes hp hne hlen
    exact absurd (List.length_eq_zero.mp (by omega)) hne
  | succ f ih =>
    intro nodes hp hne hlen hval hnodup hsingle hp' r hrun m a nd hm hnd f' hf' path idxs
    by_cases h1 : nodes.length = 1
    · have hnot : ¬ 1 < nodes.length := by omega
      simp only [buildLoop, gt_iff_lt, hnot, ↓reduceIte, Except.ok.injEq, Prod.mk.injEq] at hrun
      obtain ⟨rfl, -⟩ := hrun
      obtain ⟨nd0, hnd0, hnone⟩ := hsingle h1 a (List.getElem?_mem hm)
      rw [hnd0] at hnd
      cases hnd
      rw [hnone]
      have hspec : proofByDigest h (f + 1) (nodes.map (hashAt hp)) m = [] := by
        simp [proofByDigest, h1]
      rw [hspec]
      cases f' <;> simp [climb]
    · have hpos : 0 < nodes.length := List.length_pos.mpr hne
      have h2 : 1 < nodes.length := by omega
      have hmlt : m < nodes.length := (List.getElem?_eq_some_iff.mp hm).1
      have halt : a < hp.length := hval a (List.getElem?_mem hm)
      -- one round of pairing
      have hdl : (dupLast nodes).length = 2 * ((nodes.length + 1) / 2) := by
        rw [dupLast_length]; omega
      have hdval : ∀ a ∈ dupLast nodes, a < hp.length := fun a ha => hval a (mem_dupLast.mp ha)
      obtain ⟨hp1, ps, hrun1, hps, hlen1, e1, hmap, hnew, -⟩ :=
        pairLoop_spec h _ (dupLast nodes) hp [] hdl hdval
      simp only [List.nil_append] at hrun1
      have hpslen : ps.length = (nodes.length + 1) / 2 := by rw [hps]; simp
      have hpsne : ps ≠ [] := by
        intro hc
        rw [hc] at hpslen
        simp at hpslen
        omega
      have hpsmem : ∀ p, p ∈ ps ↔ hp.length ≤ p ∧ p < hp1.length := by
        intro p; rw [hps, hlen1]; exact mem_range'_one
      have hpsval : ∀ p ∈ ps, p < hp1.length := fun p hp_mem => ((hpsmem p).mp hp_mem).2
      have hrun' : buildLoop h f ps hp1 = .ok (hp', [r]) := by
        rw [buildLoop] at hrun
        simpa only [gt_iff_lt, h2, ↓reduceIte, bind, Except.bind, hrun1] using hrun
      obtain ⟨hp'', r'', hrun'', -, e', -⟩ := buildLoop_spec h f ps hp1 hpsne (by omega) hpsval
      rw [hrun'] at hrun''
      cases hrun''
      -- the node, its parent and the children of the parent, after the round
      have hm' : (dupLast nodes)[m]? = some a := by rw [dupLast_getElem?_of_lt hmlt]; exact hm
      obtain ⟨nd1, ndp, l, rr, hnd1, hnd1par, hndp, hpnone, hl, hrr, hil, hirr⟩ :=
        pairLoop_index h _ (dupLast nodes) hp hdl hdval (dupLast_consistent hnodup) hp1 ps hrun1
          m a hm'
      have hllt : l < hp.length := hdval l (List.getElem?_mem hil)
      have hrlt : rr < hp.length := hdval rr (List.getElem?_mem hirr)
      have hle1 := e1.length_le
      have hpm : hp.length + m / 2 ∈ ps := (hpsmem _).mpr ⟨by omega, lt_of_get hndp⟩
      have hanot : a ∉ ps := fun hc => by
        have := ((hpsmem a).mp hc).1
        omega
      -- the same cells at the end of the loop
      obtain ⟨nd', hnd', -, -, -, hpk⟩ := e' a nd1 hnd1
      rw [hnd] at hnd'
      cases hnd'
      obtain ⟨ndp', hndp', -, hl', hr', -⟩ := e' _ ndp hndp
      obtain ⟨ndl, hndl⟩ := get_of_lt (show l < hp.length by omega)
      obtain ⟨ndr, hndr⟩ := get_of_lt (show rr < hp.length by omega)
      have hash' : ∀ b, b < hp.length → hashAt hp' b = hashAt hp b := fun b hb => by
        rw [e'.hashAt (by omega), e1.hashAt hb]
      obtain ⟨ndl', hndl'⟩ := get_of_lt (show l < hp'.length by
        have := e'.length_le; omega)
      obtain ⟨ndr', hndr'⟩ := get_of_lt (show rr < hp'.length by
        have := e'.length_le; omega)
      have hcur : nd.Hash = hashAt hp a := by rw [← hash' a halt, hashAt_eq hnd]
      have hleft : ndl'.Hash = hashAt hp l := by rw [← hash' l hllt, hashAt_eq hndl']
      have hright : ndr'.Hash = hashAt hp rr := by rw [← hash' rr hrlt, hashAt_eq hndr']
      -- the remaining rounds, from the parent
      have hpsidx : ps[m / 2]? = some (hp.length + m / 2) := by
        rw [hps, List.getElem?_range' _ _ (by omega)]
        simp
      have hlev : specStep h (nodes.map (hashAt hp)) = ps.map (hashAt hp1) := by
        rw [hmap, map_dupLast]
        rfl
      obtain ⟨g, rfl⟩ : ∃ g, f' = g + 1 := ⟨f' - 1, by omega⟩
      have hrest := ih ps hp1 hpsne (by omega) hpsval (hps ▸ List.nodup_range' _ _)
        (fun _ p hp_mem => by
          obtain ⟨ndq, _, _, hq, hqnone, -⟩ := hnew p hp_mem
          exact ⟨ndq, hq, hqnone⟩)
        hp' r hrun' (m / 2) (hp.length + m / 2) ndp' hpsidx hndp' g (by omega)
      -- the entry that this level contributes
      have hpad : padOdd (nodes.map (hashAt hp)) = (dupLast nodes).map (hashAt hp) :=
        (map_dupLast _ _).symm
      have hspec : proofByDigest h (f + 1) (nodes.map (hashAt hp)) m =
          stepByDigest m (hashAt hp a) (hashAt hp l) (hashAt hp rr) ::
            proofByDigest h f (ps.map (hashAt hp1)) (m / 2) := by
        have hnot : ¬ (nodes.map (hashAt hp)).length ≤ 1 := by simp; omega
        simp only [proofByDigest, hnot, ↓reduceIte, hpad, List.getElem?_map, hm', hil, hirr,
          Option.map_some', hlev]
      have hstep := step_eq_stepByDigest m (hashAt hp a) (hashAt hp l) (hashAt hp rr)
        (fun h0 => by
          have h2m : 2 * (m / 2) = m := by omega
          rw [h2m, hm'] at hil
          rw [Option.some.inj hil])
        (fun h1 => by
          have h2m : 2 * (m / 2) + 1 = m := by omega
          rw [h2m, hm'] at hirr
          rw [Option.some.inj hirr])
      rw [hspec, ← hstep, hpk hanot, hnd1par]
      by_cases heq : hashAt hp a = hashAt hp l
      · have heq' : nd.Hash = ndl'.Hash := by rw [hcur, hleft, heq]
        simp only [climb, deref_eq_ok hnd, deref_eq_ok hndp', hl'.trans hl, hr'.trans hrr,
          derefPtr, deref_eq_ok hndl', deref_eq_ok hndr', bind, Except.bind, heq', ↓reduceIte]
        rw [hrest, hright]
        simp [heq]
      · have heq' : ¬ nd.Hash = ndl'.Hash := by rw [hcur, hleft]; exact heq
        simp only [climb, deref_eq_ok hnd, deref_eq_ok hndp', hl'.trans hl,
          derefPtr, deref_eq_ok hndl', bind, Except.bind, heq', ↓reduceIte]
        rw [hrest, hleft]
        simp [heq]

/-! ## The content of the proof of a fresh tree -/

/-- The scan of `GetProof` stops at the first leaf that holds the digest. -/
theorem findLeaf_first (hp : Heap) (x : Bytes) :
    ∀ (ls : List Nat), (∀ a ∈ ls, a < hp.length) → ∀ a, findLeaf hp x ls = .ok (some a) →
      ∃ i, ls[i]? = some a ∧ hashAt hp a = x ∧
        ∀ (j b : Nat), j < i → ls[j]? = some b → hashAt hp b ≠ x
  | [], _, a, hrun => by simp [findLeaf] at hrun
  | c :: rest, hval, a, hrun => by
    obtain ⟨nd, hnd⟩ := get_of_lt (hval c (by simp))
    by_cases hx : nd.Hash = x
    · simp only [findLeaf, deref_eq_ok hnd, bind, Except.bind, hx, ↓reduceIte, Except.ok.injEq,
        Option.some.injEq] at hrun
      subst hrun
      exact ⟨0, by simp, by rw [hashAt_eq hnd]; exact hx, fun j b hj => by omega⟩
    · simp only [findLeaf, deref_eq_ok hnd, bind, Except.bind, hx, ↓reduceIte] at hrun
      obtain ⟨i, hi, hax, hleast⟩ :=
        findLeaf_first hp x rest (fun b hb => hval b (by simp [hb])) a hrun
      refine ⟨i + 1, by simpa using hi, hax, fun j b hj hjb => ?_⟩
      cases j with
      | zero =>
        simp only [List.getElem?_cons_zero, Option.some.injEq] at hjb
        subst hjb
        rw [hashAt_eq hnd]
        exact hx
      | succ j => exact hleast j b (by omega) (by simpa using hjb)

/-- The run of the loop of `buildRoot` inside `NewFromHashes`. -/
theorem NewFromHashes_run {σ : Type} (h : Hasher σ) (hashes : List Bytes) (hne : hashes ≠ []) :
    ∃ hp r, buildLoop h (List.range hashes.length).length (List.range hashes.length)
        (hashes.map leafCell) = .ok (hp, [r]) ∧
      NewFromHashes hashes h =
        .ok (hp, { Root := some r, Leaves := List.range hashes.length, h := h }) ∧
      hashes.length ≤ hp.length := by
  have hval : ∀ a ∈ List.range hashes.length, a < (hashes.map leafCell).length := by
    intro a ha; simpa using ha
  have hrne : List.range hashes.length ≠ [] := by
    intro hc
    have := congrArg List.length hc
    simp at this
    exact hne this
  obtain ⟨hp, r, hrun, -, e, -⟩ :=
    buildLoop_spec h (List.range hashes.length).length (List.range hashes.length)
      (hashes.map leafCell) hrne (Nat.le_refl _) hval
  refine ⟨hp, r, hrun, ?_, by simpa using e.length_le⟩
  have hb := buildRoot_of_loop
    ({ Root := none, Leaves := List.range hashes.length, h := h } : Tree σ) _ _ _ hrun
  simp only [NewFromHashes, addLeaves_eq, List.nil_append, List.length_nil, bind, Except.bind]
  rw [← List.range_eq_range', hb]

theorem exists_least_index {hashes : List Bytes} {x : Bytes} (hx : x ∈ hashes) :
    ∃ i : Nat, hashes[i]? = some x ∧ ∀ j : Nat, j < i → hashes[j]? ≠ some x := by
  classical
  have hex : ∃ i : Nat, hashes[i]? = some x := List.mem_iff_getElem?.mp hx
  exact ⟨Nat.find hex, Nat.find_spec hex, fun j hj => Nat.find_min hex hj⟩

/-- On the fresh tree, `GetProof` for a digest of the list returns the proof of the least index
that holds the digest. -/
theorem GetProof_fresh {σ : Type} (h : Hasher σ) (hashes : List Bytes) (x : Bytes) (i : Nat)
    (hi : hashes[i]? = some x) (hleast : ∀ j : Nat, j < i → hashes[j]? ≠ some x) :
    ∃ hp t, NewFromHashes hashes h = .ok (hp, t) ∧
      GetProof t hp x = .ok ((proofByDigest h hashes.length hashes i).map Prod.fst,
        (proofByDigest h hashes.length hashes i).map Prod.snd, none) := by
  have hilt : i < hashes.length := (List.getElem?_eq_some_iff.mp hi).1
  have hne : hashes ≠ [] := by
    intro hc; rw [hc] at hilt; simp at hilt
  obtain ⟨hp, r, hrun, hnew, hnle⟩ := NewFromHashes_run h hashes hne
  obtain ⟨hp0, r0, hnew0, -, hmap, -⟩ := NewFromHashes_spec h hashes hne
  rw [hnew] at hnew0
  simp only [Except.ok.injEq, Prod.mk.injEq] at hnew0
  obtain ⟨rfl, -⟩ := hnew0
  refine ⟨hp, _, hnew, ?_⟩
  have hval : ∀ a ∈ List.range hashes.length, a < hp.length := fun a ha => by
    have := List.mem_range.mp ha
    omega
  have hhash : ∀ j, j < hashes.length → some (hashAt hp j) = hashes[j]? := by
    intro j hj
    have := congrArg (fun l => l[j]?) hmap
    simpa only [List.getElem?_map, List.getElem?_range hj, Option.map_some'] using this
  rcases findLeaf_spec hp x (List.range hashes.length) hval with ⟨hno, -⟩ | ⟨a, ha, hax, hfind⟩
  · exact absurd (Option.some.inj ((hhash i hilt).trans hi)) (hno i (List.mem_range.mpr hilt))
  · obtain ⟨k, hk, -, hkleast⟩ := findLeaf_first hp x _ hval a hfind
    have hklt : k < hashes.length := by
      have := (List.getElem?_eq_some_iff.mp hk).1
      simpa using this
    rw [List.getElem?_range hklt] at hk
    cases hk
    -- the leaf found is the leaf at the least index
    have hki : a = i := by
      rcases Nat.lt_trichotomy a i with hlt | heq | hgt
      · exact absurd ((hhash a hklt).symm.trans (by rw [hax])) (hleast a hlt)
      · exact heq
      · have := hkleast i i hgt (List.getElem?_range hilt)
        exact absurd (Option.some.inj ((hhash i hilt).trans hi)) this
    subst hki
    obtain ⟨nd, hnd⟩ := get_of_lt (hval a ha)
    have hwalk := buildLoop_walk h _ (List.range hashes.length) (hashes.map leafCell)
      (by intro hc; have := congrArg List.length hc; simp at this; exact hne this)
      (Nat.le_refl _) (by intro a ha; simpa using ha) (List.nodup_range _)
      (fun _ a ha => by
        obtain ⟨nd0, hnd0⟩ := get_of_lt (show a < (hashes.map leafCell).length by simpa using ha)
        obtain ⟨d, -, rfl⟩ := leafHeap_get hnd0
        exact ⟨_, hnd0, rfl⟩)
      hp r hrun a a nd (List.getElem?_range hklt) hnd hp.length (by simpa using hnle) [] []
    rw [leafHeap_hashes] at hwalk
    simp only [List.length_range, List.nil_append] at hwalk
    simp only [GetProof, hfind, bind, Except.bind, deref_eq_ok hnd, hwalk]

/-- The digests of a proof do not depend on the tie rule. -/
theorem proofByDigest_fst {σ : Type} (h : Hasher σ) :
    ∀ (fuel : Nat) (level : List Bytes) (m : Nat), m < level.length →
      (proofByDigest h fuel level m).map Prod.fst = (proofByPosition h fuel level m).map Prod.fst
  | 0, _, _, _ => rfl
  | fuel + 1, level, m, hm => by
    by_cases h1 : level.length ≤ 1
    · simp [proofByDigest, proofByPosition, h1]
    · have hlen := padOdd_length level
      have h0 : m < (padOdd level).length := by omega
      have h2 : 2 * (m / 2) < (padOdd level).length := by omega
      have h3 : 2 * (m / 2) + 1 < (padOdd level).length := by omega
      have ih := proofByDigest_fst h fuel (specStep h level) (m / 2)
        (by rw [specStep_length]; omega)
      simp only [proofByDigest, proofByPosition, h1, ↓reduceIte, List.getElem?_eq_getElem h0,
        List.getElem?_eq_getElem h2, List.getElem?_eq_getElem h3, List.map_cons, ih]
      congr 1
      unfold stepByDigest stepByPosition
      split <;> rfl

/-- C18 as stated fails: with `hash([1],[5]) = hash([2],[2]) = [12]` the parent of leaf 2 is the
right child of the root and holds the digest of the left child, and `GetProof` records position
1 for it, where the position of a right child is 0. -/
theorem getProof_position_tie :
    ([[1], [5], [2]] : List Bytes)[2]? = some [2] ∧
    (∀ j : Nat, j < 2 → ([[1], [5], [2]] : List Bytes)[j]? ≠ some [2]) ∧
    (∃ hp t, NewFromHashes [[1], [5], [2]] polyHasher = .ok (hp, t) ∧
      GetProof t hp [2] = .ok ([[2], [12]], [1, 1], none)) ∧
    proofByPosition polyHasher 3 [[1], [5], [2]] 2 = [([2], 1), ([12], 0)] := by
  refine ⟨by decide, by decide, ?_, by decide⟩
  obtain ⟨hp, t, hnew, hget⟩ :=
    GetProof_fresh polyHasher [[1], [5], [2]] [2] 2 (by decide) (by decide)
  refine ⟨hp, t, hnew, ?_⟩
  rw [hget]
  decide

/-- C18, amended. On the tree freshly built from a digest list, `GetProof(x)` for a digest `x`
of the list walks up from the leaf at the least index holding `x` and records at each step the
digest of the other child of the current node's parent, with position 1 if the current node is
the left child or its digest equals the digest of the left child, and position 0 otherwise. -/
theorem getProof_content {σ : Type} (h : Hasher σ) (hashes : List Bytes) (x : Bytes)
    (hx : x ∈ hashes) :
    ∃ hp t i, NewFromHashes hashes h = .ok (hp, t) ∧ hashes[i]? = some x ∧
      (∀ j : Nat, j < i → hashes[j]? ≠ some x) ∧
      GetProof t hp x = .ok ((proofByDigest h hashes.length hashes i).map Prod.fst,
        (proofByDigest h hashes.length hashes i).map Prod.snd, none) ∧
      (proofByDigest h hashes.length hashes i).map Prod.fst =
        (proofByPosition h hashes.length hashes i).map Prod.fst := by
  obtain ⟨i, hi, hleast⟩ := exists_least_index hx
  obtain ⟨hp, t, hnew, hget⟩ := GetProof_fresh h hashes x i hi hleast
  exact ⟨hp, t, i, hnew, hi, hleast, hget,
    proofByDigest_fst h _ hashes i (List.getElem?_eq_some_iff.mp hi).1⟩

theorem getProof_content_witness :
    ([2] : Bytes) ∈ ([[1], [5], [2]] : List Bytes) ∧
    ∃ hp t i, NewFromHashes [[1], [5], [2]] polyHasher = .ok (hp, t) ∧
      ([[1], [5], [2]] : List Bytes)[i]? = some [2] ∧
      (∀ j : Nat, j < i → ([[1], [5], [2]] : List Bytes)[j]? ≠ some [2]) ∧
      GetProof t hp [2] = .ok
        ((proofByDigest polyHasher ([[1], [5], [2]] : List Bytes).length [[1], [5], [2]] i).map
          Prod.fst,
         (proofByDigest polyHasher ([[1], [5], [2]] : List Bytes).length [[1], [5], [2]] i).map
          Prod.snd, none) ∧
      (proofByDigest polyHasher ([[1], [5], [2]] : List Bytes).length [[1], [5], [2]] i).map
          Prod.fst =
        (proofByPosition polyHasher ([[1], [5], [2]] : List Bytes).length [[1], [5], [2]] i).map
          Prod.fst :=
  ⟨by decide, getProof_content polyHasher [[1], [5], [2]] [2] (by decide)⟩

/-! ## What Verify changes -/

/-- The run of `Verify` on a heap where the leaves are linked to a root and the stored root is
in the heap. -/
theorem Verify_run {σ : Type} (t : Tree σ) (hp : Heap) (r r0 : Nat) (hne : t.Leaves ≠ [])
    (hroot : t.Root = some r) (hrlt : r < hp.length)
    (hpath : ∀ a ∈ t.Leaves, Path hp a r0 (Nat.clog 2 t.Leaves.length)) :
    ∃ b hp' cr, Verify t hp = .ok (b, hp') ∧
      buildLoop t.h t.Leaves.length t.Leaves hp = .ok (hp', [cr]) ∧ Ext hp hp' t.Leaves ∧
      ∀ a ∈ t.Leaves, Path hp' a cr (Nat.clog 2 t.Leaves.length) := by
  have hval : ∀ a ∈ t.Leaves, a < hp.length := fun a ha => by
    have := (hpath a ha).bound
    omega
  obtain ⟨hp', cr, hrun, hcrlt, e, -, -, -, -, hp2⟩ :=
    buildLoop_spec t.h t.Leaves.length t.Leaves hp hne (Nat.le_refl _) hval
  have hle := e.length_le
  obtain ⟨root, hderef, -⟩ := deref_of_lt (show r < hp'.length by omega)
  obtain ⟨crn, hderef2, -⟩ := deref_of_lt hcrlt
  have hguard : ¬ (t.Leaves.length = 0 ∨ t.Root = none) := by
    rintro (hc | hc)
    · exact hne (List.length_eq_zero.mp hc)
    · rw [hroot] at hc
      cases hc
  refine ⟨decide (root.Hash = crn.Hash), hp', cr, ?_, hrun, e, fun a ha => hp2 a ha (fun h1 => ?_)⟩
  · unfold Verify
    rw [if_neg hguard]
    simp only [buildRoot_of_loop t hp hp' cr hrun, hroot, derefPtr, hderef, hderef2, bind,
      Except.bind]
  · have hpa := hpath a ha
    rw [h1, Nat.clog_one_right] at hpa
    exact hpa.zero_inv

/-- In every reachable state the leaves are the first addresses of the heap, in order, and the
root is in the heap. -/
theorem Reachable.shape {σ : Type} {hp : Heap} {t : Tree σ} (hreach : Reachable hp t) :
    t.Leaves = List.range t.Leaves.length ∧ ∃ r, t.Root = some r ∧ r < hp.length := by
  induction hreach with
  | build hashes h hp t hrun =>
    have hne := NewFromHashes_ok_ne_nil hrun
    obtain ⟨hp0, r, hnew, hrlt, -⟩ := NewFromHashes_spec h hashes hne
    rw [hrun] at hnew
    cases hnew
    exact ⟨by simp, r, rfl, hrlt⟩
  | overwrite hp hp' t i d _ hrun ih =>
    obtain ⟨hl, r, hr, hrlt⟩ := ih
    refine ⟨hl, r, hr, ?_⟩
    cases hi : t.Leaves[i]? with
    | none => simp [overwriteLeaf, hi] at hrun
    | some b =>
      simp only [overwriteLeaf, hi] at hrun
      rw [(setHash_links hrun).1]
      exact hrlt
  | verify hp hp' t b hprev hrun ih =>
    obtain ⟨hl, r, hr, hrlt⟩ := ih
    obtain ⟨hne, r0, hpath⟩ := hprev.linked
    obtain ⟨b', hp'', cr, hv, -, e, -⟩ := Verify_run t hp r r0 hne hr hrlt hpath
    rw [hrun] at hv
    cases hv
    have := e.length_le
    exact ⟨hl, r, hr, by omega⟩

theorem Settled.reachable {σ : Type} {hp : Heap} {t : Tree σ} (hs : Settled hp t) :
    Reachable hp t := by
  cases hs with
  | build hashes h hp t hrun => exact Reachable.build hashes h hp t hrun
  | verify hp0 hp t b hprev hrun => exact Reachable.verify hp0 hp t b hprev hrun

/-- The walk of `GetProof` right after the loop of `buildRoot` has run over the leaves. -/
theorem walk_after_build {σ : Type} (t : Tree σ) (hp hp' : Heap) (cr : Nat)
    (hl : t.Leaves = List.range t.Leaves.length) (hne : t.Leaves ≠ [])
    (hval : ∀ a ∈ t.Leaves, a < hp.length)
    (hsingle : t.Leaves.length = 1 → ∀ a ∈ t.Leaves, ∃ nd, hp[a]? = some nd ∧ nd.Parent = none)
    (hrun : buildLoop t.h t.Leaves.length t.Leaves hp = .ok (hp', [cr]))
    (hle : hp.length ≤ hp'.length) (m a : Nat) (nd : Node) (hm : t.Leaves[m]? = some a)
    (hnd : hp'[a]? = some nd) :
    climb hp' hp'.length a nd.Parent [] [] =
      .ok ((proofByDigest t.h t.Leaves.length (t.Leaves.map (hashAt hp)) m).map Prod.fst,
           (proofByDigest t.h t.Leaves.length (t.Leaves.map (hashAt hp)) m).map Prod.snd) := by
  have hnodup : t.Leaves.Nodup := by rw [hl]; exact List.nodup_range _
  have hnle : t.Leaves.length ≤ hp.length := by
    have hpos : 0 < t.Leaves.length := List.length_pos.mpr hne
    have hlast : t.Leaves.length - 1 ∈ t.Leaves := by
      rw [hl]
      simp only [List.length_range, List.mem_range]
      omega
    have := hval _ hlast
    omega
  have := buildLoop_walk t.h t.Leaves.length t.Leaves hp hne (Nat.le_refl _) hval hnodup hsingle
    hp' cr hrun m a nd hm hnd hp'.length (by omega) [] []
  simpa using this

/-- In a settled state the walk of `GetProof` from each leaf returns the proof that the current
leaf digests determine. -/
theorem Settled.walk {σ : Type} {hp : Heap} {t : Tree σ} (hs : Settled hp t) (m a : Nat)
    (nd : Node) (hm : t.Leaves[m]? = some a) (hnd : hp[a]? = some nd) :
    climb hp hp.length a nd.Parent [] [] =
      .ok ((proofByDigest t.h t.Leaves.length (t.Leaves.map (hashAt hp)) m).map Prod.fst,
           (proofByDigest t.h t.Leaves.length (t.Leaves.map (hashAt hp)) m).map Prod.snd) := by
  cases hs with
  | build hashes h hp t hrun =>
    have hne := NewFromHashes_ok_ne_nil hrun
    obtain ⟨hp1, r, hloop, hnew, hnle⟩ := NewFromHashes_run h hashes hne
    rw [hrun] at hnew
    cases hnew
    have hrne : List.range hashes.length ≠ [] := by
      intro hc
      have := congrArg List.length hc
      simp at this
      exact hne this
    have hw := walk_after_build
      ({ Root := some r, Leaves := List.range hashes.length, h := h } : Tree σ)
      (hashes.map leafCell) hp r (by simp) hrne (by intro a ha; simpa using ha)
      (fun _ a ha => by
        obtain ⟨nd0, hnd0⟩ := get_of_lt (show a < (hashes.map leafCell).length by simpa using ha)
        obtain ⟨d, -, rfl⟩ := leafHeap_get hnd0
        exact ⟨_, hnd0, rfl⟩)
      hloop (by simpa using hnle) m a nd hm hnd
    obtain ⟨hp0, r0, hnew0, -, hmap, -⟩ := NewFromHashes_spec h hashes hne
    rw [hrun] at hnew0
    cases hnew0
    simp only [leafHeap_hashes, hmap] at hw ⊢
    exact hw
  | verify hp0 hp t b hprev hrun =>
    obtain ⟨hl, r, hr, hrlt⟩ := hprev.shape
    obtain ⟨hne, r0, hpath⟩ := hprev.linked
    obtain ⟨b', hp'', cr, hv, hloop, e, -⟩ := Verify_run t hp0 r r0 hne hr hrlt hpath
    rw [hrun] at hv
    cases hv
    have hval : ∀ a ∈ t.Leaves, a < hp0.length := fun a ha => by
      have := (hpath a ha).bound
      omega
    have hw := walk_after_build t hp0 hp cr hl hne hval
      (fun h1 a ha => by
        have hpa := hpath a ha
        rw [h1, Nat.clog_one_right] at hpa
        exact hpa.zero_inv)
      hloop e.length_le m a nd hm hnd
    have hleaves : t.Leaves.map (hashAt hp) = t.Leaves.map (hashAt hp0) :=
      List.map_congr_left (fun a ha => e.hashAt (hval a ha))
    rw [hleaves]
    exact hw

theorem findLeaf_congr (hp hp' : Heap) (x : Bytes) :
    ∀ (ls : List Nat), (∀ a ∈ ls, a < hp.length ∧ a < hp'.length ∧ hashAt hp' a = hashAt hp a) →
      findLeaf hp' x ls = findLeaf hp x ls
  | [], _ => rfl
  | c :: rest, hall => by
    obtain ⟨h1, h2, h3⟩ := hall c (by simp)
    obtain ⟨nd, hnd⟩ := get_of_lt h1
    obtain ⟨nd', hnd'⟩ := get_of_lt h2
    have hh : nd'.Hash = nd.Hash := by rw [← hashAt_eq hnd', ← hashAt_eq hnd, h3]
    simp only [findLeaf, deref_eq_ok hnd, deref_eq_ok hnd', bind, Except.bind, hh]
    rw [findLeaf_congr hp hp' x rest (fun b hb => hall b (by simp [hb]))]

/-- C12 as stated fails on an altered tree: after the digest of leaf 0 of the tree on
`[1], [2], [3]` is overwritten with `[9]`, `GetProof([3])` returns the stale sibling digest
`[1,2]` before a call of `Verify` and the recomputed `[9,2]` after it. -/
theorem verify_changes_proof_of_altered_tree :
    proofAroundVerify [[1], [2], [3]] idHasher 0 [9] [3] =
      .ok (([[3], [1, 2]], [1, 0], none), ([[3], [9, 2]], [1, 0], none)) := by
  simp [proofAroundVerify, NewFromHashes, addLeaves, buildRoot, buildLoop, dupLast, pairLoop,
    deref, derefPtr, setParent, setHash, overwriteLeaf, Verify, GetProof, findLeaf, climb,
    Hasher.Hash, idHasher, idImp, bind, Except.bind]

/-- C12, amended. In every state of a tree built by `NewFromHashes` and then altered by leaf
overwrites (and verified any number of times), `Verify` returns and leaves the root digest and
the leaf digests as they were; and when no leaf digest has been overwritten since the tree was
built or last verified, `GetProof` returns for every digest what it returned before the call. -/
theorem verify_frame {σ : Type} (t : Tree σ) (hp : Heap) (hreach : Reachable hp t) :
    ∃ b hp', Verify t hp = .ok (b, hp') ∧ rootDigest t hp' = rootDigest t hp ∧
      t.Leaves.map (hashAt hp') = t.Leaves.map (hashAt hp) ∧
      (Settled hp t → ∀ x, GetProof t hp' x = GetProof t hp x) := by
  obtain ⟨hl, r, hr, hrlt⟩ := hreach.shape
  obtain ⟨hne, r0, hpath⟩ := hreach.linked
  obtain ⟨b, hp', cr, hv, -, e, -⟩ := Verify_run t hp r r0 hne hr hrlt hpath
  have hle := e.length_le
  have hval : ∀ a ∈ t.Leaves, a < hp.length := fun a ha => by
    have := (hpath a ha).bound
    omega
  have hleaves : t.Leaves.map (hashAt hp') = t.Leaves.map (hashAt hp) :=
    List.map_congr_left (fun a ha => e.hashAt (hval a ha))
  refine ⟨b, hp', hv, ?_, hleaves, fun hs x => ?_⟩
  · rw [rootDigest_eq t hp' r hr (by omega), rootDigest_eq t hp r hr hrlt, e.hashAt hrlt]
  · have hs' : Settled hp' t := Settled.verify hp hp' t b hreach hv
    have hfind : findLeaf hp' x t.Leaves = findLeaf hp x t.Leaves :=
      findLeaf_congr hp hp' x t.Leaves
        (fun a ha => ⟨hval a ha, by have := hval a ha; omega, e.hashAt (hval a ha)⟩)
    rcases findLeaf_spec hp x t.Leaves hval with ⟨-, hrun⟩ | ⟨a, ha, -, hrun⟩
    · simp only [GetProof, hfind, hrun, bind, Except.bind]
    · obtain ⟨m, hm⟩ := List.mem_iff_getElem?.mp ha
      obtain ⟨nd, hnd⟩ := get_of_lt (hval a ha)
      obtain ⟨nd', hnd'⟩ := get_of_lt (show a < hp'.length by have := hval a ha; omega)
      have hw := hs.walk m a nd hm hnd
      have hw' := hs'.walk m a nd' hm hnd'
      rw [hleaves] at hw'
      simp only [GetProof, hfind, hrun, bind, Except.bind, deref_eq_ok hnd, deref_eq_ok hnd', hw,
        hw']

theorem verify_frame_witness :
    ∃ (hp : Heap) (t : Tree Byte), Reachable hp t ∧ Settled hp t ∧
      ∃ b hp', Verify t hp = .ok (b, hp') ∧ rootDigest t hp' = rootDigest t hp ∧
        t.Leaves.map (hashAt hp') = t.Leaves.map (hashAt hp) ∧
        (Settled hp t → ∀ x, GetProof t hp' x = GetProof t hp x) := by
  obtain ⟨hp, r, hnew, -⟩ := NewFromHashes_spec polyHasher [[1], [2], [3]] (by decide)
  exact ⟨hp, _, Reachable.build _ _ _ _ hnew, Settled.build _ _ _ _ hnew,
    verify_frame _ hp (Reachable.build _ _ _ _ hnew)⟩

end Mktree
